import Mathlib

/-!
Shallow embedding of the room state machine of `src/server.js`
(multiuser-lottery): the `Room` class, its methods, and the
socket-message handling layer on top of the process-wide room registry.

JS numbers that flow into `submissions` are modelled as rationals `ℚ`
(the client may send any numeric payload; every value the claims touch
is a dyadic rational on which JS double arithmetic is exact).  JS
objects used as string-keyed maps (`submissions`, `rooms`) are modelled
as insertion-ordered association lists, matching JS key-ordering and
in-place-update semantics.  An array access `a[q]` at a non-integral or
out-of-range `q` yields `undefined`, so the subsequent `.name` throws:
`Room.reveal` therefore returns `Option`, `none` standing for the
thrown `TypeError`.
-/

inductive Phase where
  | lobby
  | input
  | revealed
deriving DecidableEq, Repr

structure Participant where
  name : String
  socketId : Nat
  isHost : Bool
  online : Bool
  joinTime : Nat
deriving DecidableEq, Repr

/-- The object stored in `this.result` by `Room.reveal` (source field
names kept: the remainder is stored under `index`, the array index
under `actualWinnerIndex`). -/
structure RevealResult where
  total : ℚ
  participantCount : Nat
  index : ℚ
  actualWinnerIndex : Nat
  submissions : List (String × ℚ)
deriving DecidableEq, Repr

structure Room where
  name : String
  participants : List Participant
  phase : Phase
  submissions : List (String × ℚ)
  frozenOrder : List Participant
  result : Option RevealResult
  winner : Option String
deriving DecidableEq, Repr

/-! ### JS object-as-map primitives -/

/-- JS `key in obj`. -/
def alistHas (l : List (String × ℚ)) (k : String) : Bool :=
  l.any (fun kv => kv.1 = k)

/-- JS `obj[key]` (`none` = `undefined`). -/
def alistGet (l : List (String × ℚ)) (k : String) : Option ℚ :=
  (l.find? (fun kv => kv.1 = k)).map (·.2)

/-- JS `obj[key] = v`: overwrite in place if present, else append. -/
def alistSet (l : List (String × ℚ)) (k : String) (v : ℚ) : List (String × ℚ) :=
  match l with
  | [] => [(k, v)]
  | kv :: rest => if kv.1 = k then (k, v) :: rest else kv :: alistSet rest k v

/-- Mutate the first list element satisfying `pred` (JS
`array.find(...)` followed by field assignment on the found object). -/
def updateFirst (ps : List Participant) (pred : Participant → Bool)
    (f : Participant → Participant) : List Participant :=
  match ps with
  | [] => []
  | p :: rest => if pred p then f p :: rest else p :: updateFirst rest pred f

/-! ### Room methods -/

/-- Model of `new Room(name)`. -/
def Room.mkNew (name : String) : Room :=
  { name := name, participants := [], phase := Phase.lobby, submissions := [],
    frozenOrder := [], result := none, winner := none }

/-- Model of `Room.addParticipant(userName, socketId)`; `now` stands for the
`Date.now()` call.  Returns the JS return value (`true` = new user)
with the updated room. -/
def Room.addParticipant (r : Room) (userName : String) (socketId : Nat) (now : Nat) :
    Bool × Room :=
  if r.participants.any (fun p => p.name = userName) then
    let ps := updateFirst r.participants (fun p => p.name = userName)
      (fun p => { p with socketId := socketId, online := true })
    (false, { r with participants := ps })
  else
    let newP : Participant :=
      { name := userName, socketId := socketId,
        isHost := r.participants.length = 0, online := true, joinTime := now }
    (true, { r with participants := r.participants ++ [newP] })

/-- JS `array.sort((a, b) => a.joinTime - b.joinTime)` (stable). -/
def jsSortByJoinTime (ps : List Participant) : List Participant :=
  List.insertionSort (fun a b => a.joinTime ≤ b.joinTime) ps

instance : IsTotal Participant (fun a b => a.joinTime ≤ b.joinTime) :=
  ⟨fun a b => Nat.le_total a.joinTime b.joinTime⟩

instance : IsTrans Participant (fun a b => a.joinTime ≤ b.joinTime) :=
  ⟨fun _ _ _ hab hbc => Nat.le_trans hab hbc⟩

/-- Set `isHost = true` on the first occurrence of `w` (the JS code
mutates the shared object reference found by identity). -/
def setHostOnFirstMatch (ps : List Participant) (w : Participant) : List Participant :=
  match ps with
  | [] => []
  | p :: rest =>
    if p = w then { p with isHost := true } :: rest
    else p :: setHostOnFirstMatch rest w

/-- Body of `Room.checkAndTransferHost` after the current host was
found missing or offline: clear every `isHost` flag, then give it to
the earliest-joined online participant, or, if every participant is
offline, sort the roster in place and give it to the earliest-joined
participant overall. -/
def Room.electHost (r : Room) : Room :=
  let cleared := r.participants.map (fun p => { p with isHost := false })
  match jsSortByJoinTime (cleared.filter (fun p => p.online)) with
  | w :: _ => { r with participants := setHostOnFirstMatch cleared w }
  | [] =>
    match jsSortByJoinTime cleared with
    | p :: rest => { r with participants := { p with isHost := true } :: rest }
    | [] => { r with participants := cleared }

/-- Model of `Room.checkAndTransferHost()`. -/
def Room.checkAndTransferHost (r : Room) : Room :=
  match r.participants.find? (fun p => p.isHost) with
  | some h => if h.online then r else r.electHost
  | none => r.electHost

/-- Model of `Room.removeParticipant(socketId)`: mark offline, re-elect host. -/
def Room.removeParticipant (r : Room) (socketId : Nat) : Room :=
  if r.participants.any (fun p => p.socketId = socketId) then
    let ps := updateFirst r.participants (fun p => p.socketId = socketId)
      (fun p => { p with online := false })
    Room.checkAndTransferHost { r with participants := ps }
  else r

/-- Model of `Room.kickParticipant(userName)`: splice out of the roster,
re-elect host, return the kicked socket id (`none` = JS `null`). -/
def Room.kickParticipant (r : Room) (userName : String) : Option Nat × Room :=
  match r.participants.findIdx? (fun p => p.name = userName) with
  | none => (none, r)
  | some i =>
    match r.participants[i]? with
    | none => (none, r)
    | some kicked =>
      let ps := r.participants.eraseIdx i
      (some kicked.socketId, Room.checkAndTransferHost { r with participants := ps })

/-- Model of `Room.startRound()`. -/
def Room.startRound (r : Room) : Bool × Room :=
  if r.phase ≠ Phase.lobby ∨ r.participants.length < 2 then (false, r)
  else
    let r' := { r with phase := Phase.input, submissions := ([] : List (String × ℚ)), frozenOrder := r.participants, result := none, winner := none }
    (true, r')

/-- Model of `Room.submitNumber(userName, number)`.  The source checks only
`number < 1 || number > n` on the raw JS number. -/
def Room.submitNumber (r : Room) (userName : String) (number : ℚ) : Bool × Room :=
  if r.phase ≠ Phase.input then (false, r)
  else if ¬ r.frozenOrder.any (fun p => p.name = userName) then (false, r)
  else if number < 1 ∨ number > (r.frozenOrder.length : ℚ) then (false, r)
  else (true, { r with submissions := alistSet r.submissions userName number })

/-- Model of `Room.canReveal()`: `Object.keys(submissions).length ===
frozenOrder.length`. -/
def Room.canReveal (r : Room) : Bool :=
  r.submissions.length = r.frozenOrder.length

/-- The forced-reveal defaulting loop: every `frozenOrder` member
missing from `submissions` is assigned 1. -/
def defaultMissing (frozen : List Participant) (subs : List (String × ℚ)) :
    List (String × ℚ) :=
  frozen.foldl (fun acc p => if alistHas acc p.name then acc else acc ++ [(p.name, 1)]) subs

/-- JS truncation toward zero, as used by the `%` operator. -/
def ratTrunc (q : ℚ) : ℤ :=
  if q < 0 then ⌈q⌉ else ⌊q⌋

/-- JS `a % b` for `b ≠ 0` (fmod: remainder with the sign of `a`). -/
def jsMod (a b : ℚ) : ℚ :=
  a - b * (ratTrunc (a / b) : ℚ)

/-- JS `array[q]` is defined exactly for integral `q` with
`0 ≤ q < len`; then it is the `Nat` index. -/
def toArrayIndex (q : ℚ) (len : Nat) : Option Nat :=
  if 0 ≤ q.num ∧ q.den = 1 ∧ q.num < (len : ℤ) then some q.num.toNat else none

/-- The submissions map `reveal(force)` computes over: defaulted when
forced, as submitted otherwise. -/
def revealSubs (r : Room) (force : Bool) : List (String × ℚ) :=
  if force then defaultMissing r.frozenOrder r.submissions else r.submissions

/-- Value of `let total` (the sum of all submission values) inside `reveal`. -/
def revealTotal (r : Room) (force : Bool) : ℚ :=
  ((revealSubs r force).map Prod.snd).sum

/-- Value of `const remainder = total % n` inside `reveal`. -/
def revealRemainder (r : Room) (force : Bool) : ℚ :=
  jsMod (revealTotal r force) (r.frozenOrder.length : ℚ)

/-- Value of `const winnerIndex = remainder === 0 ? n - 1 : remainder - 1`
inside `reveal`, as the raw JS number. -/
def revealWinnerIndexQ (r : Room) (force : Bool) : ℚ :=
  if revealRemainder r force = 0 then (r.frozenOrder.length : ℚ) - 1
  else revealRemainder r force - 1

/-- Model of `Room.reveal(force)`.  `none` models the `TypeError` thrown when
`frozenOrder[winnerIndex]` is `undefined` (non-integral or
out-of-range index, or `total % 0 = NaN` when `frozenOrder` is
empty). -/
def Room.reveal (r : Room) (force : Bool) : Option (Bool × Room) :=
  if r.phase ≠ Phase.input then some (false, r)
  else if ¬ force ∧ ¬ r.canReveal then some (false, r)
  else if r.frozenOrder.length = 0 then none
  else
    match toArrayIndex (revealWinnerIndexQ r force) r.frozenOrder.length with
    | none => none
    | some i =>
      match r.frozenOrder[i]? with
      | none => none
      | some wp =>
        let res : RevealResult :=
          { total := revealTotal r force, participantCount := r.frozenOrder.length,
            index := revealRemainder r force, actualWinnerIndex := i,
            submissions := revealSubs r force }
        some (true, { r with winner := some wp.name, submissions := revealSubs r force,
                             result := some res, phase := Phase.revealed })

/-- The room state after a `reveal(force)` call returns or throws: on
a throw the submissions already defaulted by a forced reveal stay
mutated, everything else is untouched. -/
def Room.revealRun (r : Room) (force : Bool) : Room :=
  match r.reveal force with
  | some (_, r') => r'
  | none => { r with submissions := revealSubs r force }

/-- Model of `Room.backToLobby()`. -/
def Room.backToLobby (r : Room) : Bool × Room :=
  (true, { r with phase := Phase.lobby, submissions := ([] : List (String × ℚ)), frozenOrder := ([] : List Participant), result := none, winner := none })

/-- Model of `Room.isEmpty()`. -/
def Room.isEmpty (r : Room) : Bool :=
  (r.participants.filter (fun p => p.online)).length = 0

/-! ### Snapshot projection (`Room.getState`) -/

structure ParticipantView where
  name : String
  isHost : Bool
  online : Bool
deriving DecidableEq, Repr

structure StateView where
  name : String
  participants : List ParticipantView
  phase : Phase
  submissions : Option (List (String × Bool))
  result : Option RevealResult
  winner : Option String
deriving DecidableEq, Repr

/-- Model of `Room.getState()`. -/
def Room.getState (r : Room) : StateView :=
  { name := r.name,
    participants := r.participants.map (fun p =>
      { name := p.name, isHost := p.isHost, online := p.online }),
    phase := r.phase,
    submissions :=
      if r.phase = Phase.input then
        some (r.submissions.map (fun kv => (kv.1, true)))
      else none,
    result := r.result,
    winner := r.winner }

/-! ### Room-level operations and reachability -/

/-- One direct mutation of a room through its method contract. -/
inductive RoomOp where
  | add (userName : String) (socketId : Nat) (now : Nat)
  | remove (socketId : Nat)
  | kick (userName : String)
  | start
  | submit (userName : String) (number : ℚ)
  | revealOp (force : Bool)
  | toLobby

def Room.applyOp (r : Room) (op : RoomOp) : Room :=
  match op with
  | RoomOp.add u s t => (r.addParticipant u s t).2
  | RoomOp.remove s => r.removeParticipant s
  | RoomOp.kick u => (r.kickParticipant u).2
  | RoomOp.start => r.startRound.2
  | RoomOp.submit u v => (r.submitNumber u v).2
  | RoomOp.revealOp f => r.revealRun f
  | RoomOp.toLobby => r.backToLobby.2

/-- Rooms reachable from `new Room(name)` by method calls. -/
inductive RoomReachable : Room → Prop where
  | init (name : String) : RoomReachable (Room.mkNew name)
  | step {r : Room} (op : RoomOp) : RoomReachable r → RoomReachable (r.applyOp op)

/-! ### Message-handling protocol layer over the room registry -/

/-- The per-connection closure variables `currentRoom` / `currentUser`. -/
structure Session where
  currentRoom : Option String
  currentUser : Option String
deriving DecidableEq, Repr

/-- The process state: the global `rooms` object plus every
connection's session variables (absent socket id = fresh connection,
both variables `null`). -/
structure ServerState where
  rooms : List (String × Room)
  sessions : List (Nat × Session)
deriving DecidableEq, Repr

def ServerState.init : ServerState := { rooms := [], sessions := [] }

def roomsGet (l : List (String × Room)) (k : String) : Option Room :=
  (l.find? (fun kv => kv.1 = k)).map (·.2)

def roomsSet (l : List (String × Room)) (k : String) (v : Room) : List (String × Room) :=
  match l with
  | [] => [(k, v)]
  | kv :: rest => if kv.1 = k then (k, v) :: rest else kv :: roomsSet rest k v

/-- JS `delete rooms[k]`. -/
def roomsDelete (l : List (String × Room)) (k : String) : List (String × Room) :=
  l.filter (fun kv => kv.1 ≠ k)

def getSession (l : List (Nat × Session)) (sid : Nat) : Session :=
  match (l.find? (fun kv => kv.1 = sid)).map (·.2) with
  | some s => s
  | none => { currentRoom := none, currentUser := none }

def setSession (l : List (Nat × Session)) (sid : Nat) (s : Session) : List (Nat × Session) :=
  match l with
  | [] => [(sid, s)]
  | kv :: rest => if kv.1 = sid then (sid, s) :: rest else kv :: setSession rest sid s

/-- Every inbound socket message, tagged with the sending connection's
socket id; `now` on `joinRoom` stands for `Date.now()`. -/
inductive Msg where
  | joinRoom (sid : Nat) (roomName userName : String) (now : Nat)
  | startRound (sid : Nat)
  | submitNumber (sid : Nat) (number : ℚ)
  | revealResult (sid : Nat)
  | forceReveal (sid : Nat)
  | backToLobby (sid : Nat)
  | kickUser (sid : Nat) (userName : String)
  | leaveRoom (sid : Nat)
  | disconnect (sid : Nat)

/-- The `currentRoom`/`currentUser`/`rooms[...]` resolution prefix
shared by every non-join handler. -/
def resolveSession (s : ServerState) (sid : Nat) : Option (String × String × Room) :=
  match (getSession s.sessions sid).currentRoom, (getSession s.sessions sid).currentUser with
  | some rn, some un =>
    match roomsGet s.rooms rn with
    | some room => some (rn, un, room)
    | none => none
  | _, _ => none

/-- The host-authorization gate: the caller's participant record must
exist and carry `isHost`. -/
def callerIsHost (room : Room) (un : String) : Bool :=
  match room.participants.find? (fun p => p.name = un) with
  | some p => p.isHost
  | none => false

/-- The `joinRoom` handler. -/
def handleJoin (s : ServerState) (sid : Nat) (rn un : String) (now : Nat) : ServerState :=
  if rn = "" ∨ un = "" then s
  else
    let rooms1 := if (roomsGet s.rooms rn).isNone then roomsSet s.rooms rn (Room.mkNew rn) else s.rooms
    match roomsGet rooms1 rn with
    | none => s
    | some room =>
      if room.phase ≠ Phase.lobby ∧ ¬ room.participants.any (fun p => p.name = un) then
        { s with rooms := rooms1 }
      else
        let room' := (room.addParticipant un sid now).2
        { rooms := roomsSet rooms1 rn room',
          sessions := setSession s.sessions sid { currentRoom := some rn, currentUser := some un } }

/-- Shared shape of the host-gated handlers (`startRound`,
`revealResult`, `forceReveal`, `backToLobby`): resolve, check host,
apply the room mutation. -/
def handleHostGated (s : ServerState) (sid : Nat) (f : Room → Room) : ServerState :=
  match resolveSession s sid with
  | none => s
  | some (rn, un, room) =>
    if callerIsHost room un then { s with rooms := roomsSet s.rooms rn (f room) }
    else s

/-- The `submitNumber` handler (no host gate). -/
def handleSubmit (s : ServerState) (sid : Nat) (v : ℚ) : ServerState :=
  match resolveSession s sid with
  | none => s
  | some (rn, un, room) =>
    { s with rooms := roomsSet s.rooms rn (room.submitNumber un v).2 }

/-- The `kickUser` handler: host gate plus the lobby-phase gate. -/
def handleKick (s : ServerState) (sid : Nat) (target : String) : ServerState :=
  match resolveSession s sid with
  | none => s
  | some (rn, un, room) =>
    if callerIsHost room un then
      if room.phase ≠ Phase.lobby then s
      else { s with rooms := roomsSet s.rooms rn (room.kickParticipant target).2 }
    else s

/-- Model of `handleDisconnect` (shared by `leaveRoom` and `disconnect`): mark
offline, delete the room when no one is left online, clear the
session. -/
def handleDisconnect (s : ServerState) (sid : Nat) : ServerState :=
  match resolveSession s sid with
  | none => s
  | some (rn, _, room) =>
    let room' := room.removeParticipant sid
    let rooms' := if room'.isEmpty then roomsDelete s.rooms rn else roomsSet s.rooms rn room'
    { rooms := rooms',
      sessions := setSession s.sessions sid { currentRoom := none, currentUser := none } }

/-- One run-to-completion handler dispatch. -/
def ServerState.step (s : ServerState) (m : Msg) : ServerState :=
  match m with
  | Msg.joinRoom sid rn un now => handleJoin s sid rn un now
  | Msg.startRound sid => handleHostGated s sid (fun room => room.startRound.2)
  | Msg.submitNumber sid v => handleSubmit s sid v
  | Msg.revealResult sid => handleHostGated s sid (fun room => room.revealRun false)
  | Msg.forceReveal sid => handleHostGated s sid (fun room => room.revealRun true)
  | Msg.backToLobby sid => handleHostGated s sid (fun room => room.backToLobby.2)
  | Msg.kickUser sid target => handleKick s sid target
  | Msg.leaveRoom sid => handleDisconnect s sid
  | Msg.disconnect sid => handleDisconnect s sid

/-- The registry invariant of the claim: every stored room has at
least one online participant. -/
def registryInv (s : ServerState) : Prop :=
  ∀ rn room, (rn, room) ∈ s.rooms → ∃ p ∈ room.participants, p.online = true

/-- Modelled from the spec: the claimed legal phase-transition cycle
lobby → input → revealed → lobby. -/
def specPhaseEdge (a b : Phase) : Prop :=
  (a = Phase.lobby ∧ b = Phase.input) ∨ (a = Phase.input ∧ b = Phase.revealed) ∨
    (a = Phase.revealed ∧ b = Phase.lobby)

instance (a b : Phase) : Decidable (specPhaseEdge a b) := by
  unfold specPhaseEdge
  infer_instance

/-! ### Predicates and concrete instances used by the verification -/

/-- Integrality of every submitted value (what `Number.isInteger`
would check; the source never checks it). -/
def intSubs (subs : List (String × ℚ)) : Prop :=
  ∀ kv ∈ subs, (kv.2).den = 1

/-- Invariants of every reachable room. -/
structure RoomInv (r : Room) : Prop where
  frozenBig : r.phase = Phase.input → 2 ≤ r.frozenOrder.length
  subsGE : ∀ kv ∈ r.submissions, (1 : ℚ) ≤ kv.2
  partNodup : (r.participants.map Participant.name).Nodup
  subsNodup : (r.submissions.map Prod.fst).Nodup
  subsInFrozen : ∀ kv ∈ r.submissions, kv.1 ∈ r.frozenOrder.map Participant.name
  frozenNodup : (r.frozenOrder.map Participant.name).Nodup
  resultNone : r.phase ≠ Phase.revealed → r.result = none ∧ r.winner = none

/-- A frozen roster of four participants, as in the spec's worked
example. -/
def frozen4 : List Participant :=
  [⟨"W", 1, true, true, 0⟩, ⟨"X", 2, false, true, 1⟩,
   ⟨"Y", 3, false, true, 2⟩, ⟨"Z", 4, false, true, 3⟩]

/-- An input-phase room over `frozen4` with the given submissions. -/
def room4 (subs : List (String × ℚ)) : Room :=
  { Room.mkNew "R" with
    phase := Phase.input
    frozenOrder := frozen4
    submissions := subs }

def room4Total9 : Room := room4 [("W", 4), ("X", 1), ("Y", 2), ("Z", 2)]

def room4Total8 : Room := room4 [("W", 2), ("X", 2), ("Y", 2), ("Z", 2)]

def room4Total10 : Room := room4 [("W", 4), ("X", 2), ("Y", 2), ("Z", 2)]

/-- A two-member input-phase room used to exhibit `submitNumber`'s
missing integrality check. -/
def c2Room : Room :=
  { Room.mkNew "R" with
    phase := Phase.input
    frozenOrder := [⟨"A", 1, true, true, 0⟩, ⟨"B", 2, false, true, 1⟩] }

/-- A reachable room holding the non-integer submission 3/2. -/
def c3BadRoom : Room :=
  ((((Room.mkNew "R").applyOp (RoomOp.add "A" 1 0)).applyOp
    (RoomOp.add "B" 2 1)).applyOp RoomOp.start).applyOp (RoomOp.submit "A" (mkRat 3 2))

/-- A second reachable room with a non-integer submission. -/
def c10BadRoom : Room :=
  ((((Room.mkNew "S").applyOp (RoomOp.add "P" 5 10)).applyOp
    (RoomOp.add "Q" 6 11)).applyOp RoomOp.start).applyOp (RoomOp.submit "P" (mkRat 3 2))

/-- A reachable input-phase room (two members, round started). -/
def c6Room : Room :=
  (((Room.mkNew "R").applyOp (RoomOp.add "A" 1 0)).applyOp
    (RoomOp.add "B" 2 1)).applyOp RoomOp.start

/-- The registry state after `A` creates room `R` and then, as host,
kicks themself. -/
def c5BadState : ServerState :=
  (ServerState.init.step (Msg.joinRoom 1 "R" "A" 0)).step (Msg.kickUser 1 "A")

/-- Roster A, B, C joined in that order, B currently host, all
online. -/
def threeRoom : Room :=
  { Room.mkNew "R" with
    participants := [⟨"A", 1, false, true, 0⟩, ⟨"B", 2, true, true, 1⟩, ⟨"C", 3, false, true, 2⟩] }

/-- A two-member lobby room (fresh, both online). -/
def c4Room : Room :=
  { Room.mkNew "R" with
    participants := [⟨"A", 1, true, true, 0⟩, ⟨"B", 2, false, true, 1⟩] }

/-- An input-phase room carrying roster and frozen roster, for the
frame-property witness. -/
def c9Room : Room :=
  { Room.mkNew "R" with
    phase := Phase.input
    participants := [⟨"A", 1, true, true, 0⟩, ⟨"B", 2, false, true, 1⟩]
    frozenOrder := [⟨"A", 1, true, true, 0⟩, ⟨"B", 2, false, true, 1⟩] }

/-- Roster A (online) and C (online) with no current host, as just
after the host B was removed. -/
def c7Room : Room :=
  { Room.mkNew "R" with
    participants := [⟨"A", 1, false, true, 0⟩, ⟨"C", 3, false, true, 2⟩] }

/-- Two input-phase rooms agreeing everywhere except the submitted
values. -/
def c8RoomA : Room :=
  { c2Room with submissions := [("A", 1), ("B", 2)] }

def c8RoomB : Room :=
  { c2Room with submissions := [("A", 2), ("B", 1)] }

/-! ### Shape lemmas: roster operations touch only `participants` -/

theorem electHost_shape (r : Room) : ∃ ps, r.electHost = { r with participants := ps } := by
  unfold Room.electHost
  dsimp only
  split
  · exact ⟨_, rfl⟩
  · split
    · exact ⟨_, rfl⟩
    · exact ⟨_, rfl⟩

theorem checkAndTransferHost_shape (r : Room) :
    ∃ ps, r.checkAndTransferHost = { r with participants := ps } := by
  unfold Room.checkAndTransferHost
  cases h : r.participants.find? (fun p => p.isHost) with
  | none => exact electHost_shape r
  | some p =>
    by_cases hp : p.online
    · simp only [hp, if_true]; exact ⟨r.participants, rfl⟩
    · simp only [hp, if_false]; exact electHost_shape r

theorem addParticipant_shape (r : Room) (u : String) (sid now : Nat) :
    ∃ ps, (r.addParticipant u sid now).2 = { r with participants := ps } := by
  unfold Room.addParticipant
  by_cases h : r.participants.any (fun p => p.name = u)
  · simp only [h]; exact ⟨_, rfl⟩
  · simp only [h]; exact ⟨_, rfl⟩

theorem removeParticipant_shape (r : Room) (sid : Nat) :
    ∃ ps, r.removeParticipant sid = { r with participants := ps } := by
  unfold Room.removeParticipant
  by_cases h : r.participants.any (fun p => p.socketId = sid)
  · simp only [h, if_true]
    exact checkAndTransferHost_shape _
  · simp only [h, if_false]; exact ⟨r.participants, rfl⟩

theorem kickParticipant_shape (r : Room) (u : String) :
    ∃ ps, (r.kickParticipant u).2 = { r with participants := ps } := by
  unfold Room.kickParticipant
  cases h : r.participants.findIdx? (fun p => p.name = u) with
  | none => exact ⟨r.participants, rfl⟩
  | some i =>
    dsimp only
    cases h2 : r.participants[i]? with
    | none => exact ⟨r.participants, rfl⟩
    | some kicked =>
      dsimp only
      exact checkAndTransferHost_shape _

/-! ### C9: roster edits do not touch the frozen round roster -/

/-- C9: while the room is not in the lobby phase, `addParticipant`,
`removeParticipant` and `kickParticipant` leave `frozenOrder`
unchanged as a sequence of names: round membership is a snapshot that
later roster edits neither extend, shrink, nor reorder. -/
theorem frozenOrder_frame (r : Room) (_hphase : r.phase ≠ Phase.lobby)
    (u : String) (sid now : Nat) :
    (r.addParticipant u sid now).2.frozenOrder.map Participant.name
        = r.frozenOrder.map Participant.name ∧
      (r.removeParticipant sid).frozenOrder.map Participant.name
        = r.frozenOrder.map Participant.name ∧
      (r.kickParticipant u).2.frozenOrder.map Participant.name
        = r.frozenOrder.map Participant.name := by
  obtain ⟨ps1, h1⟩ := addParticipant_shape r u sid now
  obtain ⟨ps2, h2⟩ := removeParticipant_shape r sid
  obtain ⟨ps3, h3⟩ := kickParticipant_shape r u
  rw [h1, h2, h3]
  exact ⟨rfl, rfl, rfl⟩

theorem frozenOrder_frame_witness :
    c9Room.phase ≠ Phase.lobby ∧
      (c9Room.addParticipant "C" 3 2).2.frozenOrder.map Participant.name
        = c9Room.frozenOrder.map Participant.name ∧
      (c9Room.removeParticipant 1).frozenOrder.map Participant.name
        = c9Room.frozenOrder.map Participant.name ∧
      (c9Room.kickParticipant "C").2.frozenOrder.map Participant.name
        = c9Room.frozenOrder.map Participant.name :=
  ⟨by decide, frozenOrder_frame c9Room (by decide) "C" 1 2⟩

/-! ### C4: startRound -/

/-- C4: `startRound()` returns `false` and changes nothing exactly
when the phase is not `lobby` or the full roster has fewer than 2
members; otherwise it returns `true`, moves to `input`, clears
`submissions`, `result` and `winner`, and freezes a snapshot of the
current roster. -/
theorem startRound_spec (r : Room) :
    ((r.startRound.1 = false ∧ r.startRound.2 = r)
        ↔ (r.phase ≠ Phase.lobby ∨ r.participants.length < 2)) ∧
      ((r.phase = Phase.lobby ∧ 2 ≤ r.participants.length) →
        r.startRound.1 = true ∧
          r.startRound.2.phase = Phase.input ∧
          r.startRound.2.submissions = [] ∧
          r.startRound.2.result = none ∧
          r.startRound.2.winner = none ∧
          r.startRound.2.frozenOrder = r.participants ∧
          r.startRound.2.participants = r.participants ∧
          r.startRound.2.name = r.name) := by
  by_cases h : r.phase ≠ Phase.lobby ∨ r.participants.length < 2
  · have h1 : r.startRound = (false, r) := by
      unfold Room.startRound; rw [if_pos h]
    rw [h1]
    constructor
    · simpa using h
    · intro hc
      rcases h with h | h
      · exact absurd hc.1 h
      · omega
  · have h1 : r.startRound = (true, { r with phase := Phase.input, submissions := ([] : List (String × ℚ)), frozenOrder := r.participants, result := none, winner := none }) := by
      unfold Room.startRound; rw [if_neg h]
    rw [h1]
    constructor
    · simpa using h
    · intro _
      exact ⟨rfl, rfl, rfl, rfl, rfl, rfl, rfl, rfl⟩

theorem startRound_spec_witness :
    c4Room.startRound.1 = true ∧
      c4Room.startRound.2.phase = Phase.input ∧
      c4Room.startRound.2.submissions = [] ∧
      c4Room.startRound.2.result = none ∧
      c4Room.startRound.2.winner = none ∧
      c4Room.startRound.2.frozenOrder = c4Room.participants ∧
      c4Room.startRound.2.participants = c4Room.participants ∧
      c4Room.startRound.2.name = c4Room.name :=
  (startRound_spec c4Room).2 ⟨by decide, by decide⟩

/-! ### Association-list lemmas -/

theorem alistGet_alistSet_self (l : List (String × ℚ)) (k : String) (v : ℚ) :
    alistGet (alistSet l k v) k = some v := by
  induction l with
  | nil => simp [alistSet, alistGet]
  | cons kv rest ih =>
    by_cases h : kv.1 = k
    · simp [alistSet, alistGet, h]
    · simp only [alistSet, if_neg h]
      unfold alistGet
      rw [List.find?_cons_of_neg _ (by simpa using h)]
      exact ih

theorem alistGet_alistSet_ne (l : List (String × ℚ)) (k k' : String) (v : ℚ)
    (hne : k' ≠ k) : alistGet (alistSet l k v) k' = alistGet l k' := by
  have hkk' : ¬ (k = k') := fun hh => hne hh.symm
  induction l with
  | nil =>
    simp only [alistSet]
    unfold alistGet
    rw [List.find?_cons_of_neg _ (by simpa using hkk')]
  | cons kv rest ih =>
    by_cases h : kv.1 = k
    · have hkv : ¬ (kv.1 = k') := by rw [h]; exact hkk'
      simp only [alistSet, if_pos h]
      unfold alistGet
      rw [List.find?_cons_of_neg _ (by simpa using hkk'),
        List.find?_cons_of_neg _ (by simpa using hkv)]
    · simp only [alistSet, if_neg h]
      by_cases hkv : kv.1 = k'
      · unfold alistGet
        rw [List.find?_cons_of_pos _ (by simpa using hkv),
          List.find?_cons_of_pos _ (by simpa using hkv)]
      · unfold alistGet
        rw [List.find?_cons_of_neg _ (by simpa using hkv),
          List.find?_cons_of_neg _ (by simpa using hkv)]
        exact ih

theorem mem_alistSet (l : List (String × ℚ)) (k : String) (v : ℚ) (kv : String × ℚ)
    (h : kv ∈ alistSet l k v) : kv = (k, v) ∨ kv ∈ l := by
  induction l with
  | nil => simpa [alistSet] using h
  | cons hd rest ih =>
    by_cases hh : hd.1 = k
    · simp only [alistSet, if_pos hh, List.mem_cons] at h
      rcases h with h | h
      · exact Or.inl h
      · exact Or.inr (List.mem_cons_of_mem _ h)
    · simp only [alistSet, if_neg hh, List.mem_cons] at h
      rcases h with h | h
      · exact Or.inr (h ▸ List.mem_cons_self _ _)
      · rcases ih h with h2 | h2
        · exact Or.inl h2
        · exact Or.inr (List.mem_cons_of_mem _ h2)

theorem mem_keys_alistSet (l : List (String × ℚ)) (k : String) (v : ℚ) (x : String) :
    x ∈ (alistSet l k v).map Prod.fst ↔ x ∈ l.map Prod.fst ∨ x = k := by
  induction l with
  | nil => simp [alistSet]
  | cons hd rest ih =>
    by_cases hh : hd.1 = k
    · have e : alistSet (hd :: rest) k v = (k, v) :: rest := by
        simp [alistSet, hh]
      rw [e]
      simp only [List.map_cons, List.mem_cons, hh]
      tauto
    · simp only [alistSet, if_neg hh, List.map_cons, List.mem_cons, ih]
      tauto

theorem keys_nodup_alistSet (l : List (String × ℚ)) (k : String) (v : ℚ)
    (h : (l.map Prod.fst).Nodup) : ((alistSet l k v).map Prod.fst).Nodup := by
  induction l with
  | nil => simp [alistSet]
  | cons hd rest ih =>
    simp only [List.map_cons, List.nodup_cons] at h
    by_cases hh : hd.1 = k
    · simp only [alistSet, if_pos hh, List.map_cons, List.nodup_cons]
      exact ⟨by rw [← hh]; exact h.1, h.2⟩
    · simp only [alistSet, if_neg hh, List.map_cons, List.nodup_cons]
      refine ⟨?_, ih h.2⟩
      rw [mem_keys_alistSet]
      rintro (hx | hx)
      · exact h.1 hx
      · exact hh hx

/-! ### C2: submitNumber -/

/-- C2 (amended): `submitNumber(name, number)` succeeds — recording
`submissions[name] = number`, overwriting any prior value and leaving
every other entry unchanged — exactly when the phase is `input`, the
name belongs to `frozenOrder`, and `1 ≤ number ≤ |frozenOrder|`; in
every other case it returns `false` and mutates nothing.  The source
checks only the range, never integrality, so a fractional `number`
inside the range is accepted. -/
theorem submitNumber_spec_amended (r : Room) (u : String) (x : ℚ) :
    ((r.submitNumber u x).1 = true ↔
        (r.phase = Phase.input ∧ (∃ p ∈ r.frozenOrder, p.name = u) ∧
          1 ≤ x ∧ x ≤ (r.frozenOrder.length : ℚ))) ∧
      ((r.submitNumber u x).1 = true →
        (r.submitNumber u x).2 = { r with submissions := alistSet r.submissions u x } ∧
          alistGet (r.submitNumber u x).2.submissions u = some x ∧
          ∀ k, k ≠ u →
            alistGet (r.submitNumber u x).2.submissions k = alistGet r.submissions k) ∧
      ((r.submitNumber u x).1 = false → (r.submitNumber u x).2 = r) := by
  have hany : r.frozenOrder.any (fun p => p.name = u) = true ↔ ∃ p ∈ r.frozenOrder, p.name = u := by
    simp [List.any_eq_true]
  by_cases h1 : r.phase = Phase.input
  · by_cases h2 : r.frozenOrder.any (fun p => p.name = u)
    · by_cases h3 : x < 1 ∨ x > (r.frozenOrder.length : ℚ)
      · have e : r.submitNumber u x = (false, r) := by
          unfold Room.submitNumber
          rw [if_neg (by simp [h1]), if_neg (by simpa using h2), if_pos h3]
        rw [e]
        refine ⟨?_, fun h => Bool.noConfusion h, fun _ => rfl⟩
        constructor
        · intro h; exact Bool.noConfusion h
        · rintro ⟨-, -, hge, hle⟩
          rcases h3 with h3 | h3
          · exact absurd hge (by exact not_le.mpr h3)
          · exact absurd hle (by exact not_le.mpr h3)
      · have e : r.submitNumber u x =
            (true, { r with submissions := alistSet r.submissions u x }) := by
          unfold Room.submitNumber
          rw [if_neg (by simp [h1]), if_neg (by simpa using h2), if_neg h3]
        rw [e]
        push_neg at h3
        refine ⟨?_, ?_, fun h => Bool.noConfusion h⟩
        · constructor
          · intro _
            exact ⟨h1, hany.mp h2, h3.1, h3.2⟩
          · intro _; rfl
        · intro _
          refine ⟨rfl, alistGet_alistSet_self _ _ _, fun k hk => alistGet_alistSet_ne _ _ _ _ hk⟩
    · have e : r.submitNumber u x = (false, r) := by
        unfold Room.submitNumber
        rw [if_neg (by simp [h1]), if_pos (by simpa using h2)]
      rw [e]
      refine ⟨?_, fun h => Bool.noConfusion h, fun _ => rfl⟩
      constructor
      · intro h; exact Bool.noConfusion h
      · rintro ⟨-, hex, -⟩
        exact (h2 (hany.mpr hex)).elim
  · have e : r.submitNumber u x = (false, r) := by
      unfold Room.submitNumber
      rw [if_pos h1]
    rw [e]
    refine ⟨?_, fun h => Bool.noConfusion h, fun _ => rfl⟩
    constructor
    · intro h; exact Bool.noConfusion h
    · rintro ⟨hp, -⟩
      exact (h1 hp).elim

/-- C2 counterexample: in an input-phase room with two frozen
participants, `submitNumber("A", 3/2)` returns `true` and stores the
non-integer 3/2, though the claim asserts every non-integer is
rejected. -/
theorem submitNumber_accepts_noninteger :
    (c2Room.submitNumber "A" (mkRat 3 2)).1 = true ∧
      alistGet (c2Room.submitNumber "A" (mkRat 3 2)).2.submissions "A" = some (mkRat 3 2) ∧
      (mkRat 3 2).den ≠ 1 :=
  ⟨by with_unfolding_all decide, by with_unfolding_all decide, by with_unfolding_all decide⟩

theorem submitNumber_spec_amended_witness :
    (c2Room.submitNumber "A" 1).1 = true ∧
      (c2Room.submitNumber "A" 1).2
        = { c2Room with submissions := alistSet c2Room.submissions "A" 1 } := by
  have h := submitNumber_spec_amended c2Room "A" 1
  have ht : (c2Room.submitNumber "A" 1).1 = true := by decide
  exact ⟨ht, (h.2.1 ht).1⟩

/-! ### Inversion lemmas for `Room.reveal` -/

theorem reveal_not_input (r : Room) (f : Bool) (h : r.phase ≠ Phase.input) :
    r.reveal f = some (false, r) := by
  unfold Room.reveal
  rw [if_pos h]

theorem reveal_eq_some_false (r : Room) (f : Bool) (r' : Room)
    (h : r.reveal f = some (false, r')) : r' = r := by
  unfold Room.reveal at h
  split at h
  · simpa using h.symm
  · split at h
    · simpa using h.symm
    · split at h
      · exact absurd h (by simp)
      · split at h
        · exact absurd h (by simp)
        · split at h
          · exact absurd h (by simp)
          · simp at h

theorem reveal_success_inv (r : Room) (f : Bool) (r' : Room)
    (h : r.reveal f = some (true, r')) :
    r.phase = Phase.input ∧ (f = false → r.canReveal = true) ∧
      ∃ i wp, toArrayIndex (revealWinnerIndexQ r f) r.frozenOrder.length = some i ∧
        r.frozenOrder[i]? = some wp ∧
        r' = { r with
               winner := some wp.name
               submissions := revealSubs r f
               result := some { total := revealTotal r f,
                                participantCount := r.frozenOrder.length,
                                index := revealRemainder r f,
                                actualWinnerIndex := i,
                                submissions := revealSubs r f }
               phase := Phase.revealed } := by
  unfold Room.reveal at h
  split at h
  · exact absurd h (by simp)
  · rename_i hphase
    have hph : r.phase = Phase.input := by
      by_contra hc
      exact hphase hc
    split at h
    · exact absurd h (by simp)
    · rename_i hpass
      split at h
      · exact absurd h (by simp)
      · split at h
        · exact absurd h (by simp)
        · rename_i i hidx
          split at h
          · exact absurd h (by simp)
          · rename_i wp hwp
            refine ⟨hph, ?_, i, wp, hidx, hwp, ?_⟩
            · intro hf
              subst hf
              by_contra hc
              exact hpass ⟨by simp, by simpa using hc⟩
            · simp only [Option.some.injEq, Prod.mk.injEq] at h
              exact h.2.symm

theorem reveal_success_of (r : Room) (f : Bool)
    (hphase : r.phase = Phase.input)
    (hpass : f = true ∨ r.canReveal = true)
    (i : Nat)
    (hidx : toArrayIndex (revealWinnerIndexQ r f) r.frozenOrder.length = some i) :
    ∃ r', r.reveal f = some (true, r') := by
  have hn : ¬ (r.frozenOrder.length = 0) := by
    intro h0
    unfold toArrayIndex at hidx
    rw [h0] at hidx
    split at hidx
    · rename_i hcond
      have := hcond.2.2
      omega
    · exact Option.noConfusion hidx
  have hilt : i < r.frozenOrder.length := by
    unfold toArrayIndex at hidx
    split at hidx
    · rename_i hcond
      have h1 := hcond.1
      have h3 := hcond.2.2
      have : i = (revealWinnerIndexQ r f).num.toNat := by
        simpa using hidx.symm
      omega
    · exact Option.noConfusion hidx
  obtain ⟨wp, hwp⟩ : ∃ wp, r.frozenOrder[i]? = some wp := by
    rw [List.getElem?_eq_getElem hilt]
    exact ⟨_, rfl⟩
  have hpass2 : ¬ (¬ f = true ∧ ¬ r.canReveal = true) := by
    rcases hpass with h | h
    · simp [h]
    · simp [h]
  refine ⟨{ r with winner := some wp.name, submissions := revealSubs r f, result := some { total := revealTotal r f, participantCount := r.frozenOrder.length, index := revealRemainder r f, actualWinnerIndex := i, submissions := revealSubs r f }, phase := Phase.revealed }, ?_⟩
  unfold Room.reveal
  rw [if_neg (by simpa using hphase), if_neg hpass2, if_neg hn, hidx]
  dsimp only
  rw [hwp]

theorem submitNumber_snd_shape (r : Room) (u : String) (x : ℚ) :
    (r.submitNumber u x).2 = r ∨
      (r.submitNumber u x).2 = { r with submissions := alistSet r.submissions u x } := by
  unfold Room.submitNumber
  split
  · exact Or.inl rfl
  · split
    · exact Or.inl rfl
    · split
      · exact Or.inl rfl
      · exact Or.inr rfl

theorem revealRun_phase (r : Room) (f : Bool) :
    (r.revealRun f).phase = r.phase ∨
      (r.phase = Phase.input ∧ (r.revealRun f).phase = Phase.revealed) := by
  unfold Room.revealRun
  cases hrev : r.reveal f with
  | none => exact Or.inl rfl
  | some br =>
    cases br with
    | mk b r' =>
      cases b with
      | false =>
        have h := reveal_eq_some_false r f r' hrev
        dsimp only
        rw [h]
        exact Or.inl rfl
      | true =>
        obtain ⟨hph, -, i, wp, -, -, hr'⟩ := reveal_success_inv r f r' hrev
        dsimp only
        rw [hr']
        exact Or.inr ⟨hph, rfl⟩

/-! ### C6: phase transitions -/

/-- C6 (amended): every room operation either leaves the phase
unchanged or moves it along lobby→input (`startRound`),
input→revealed (`reveal`), revealed→lobby (`backToLobby`), or the
abort edge input→lobby (`backToLobby` called during a round, which the
code allows from any phase).  The spec's pure three-edge cycle is
extended by that abort edge. -/
theorem phase_transitions_amended (r : Room) (op : RoomOp) :
    (r.applyOp op).phase = r.phase ∨ specPhaseEdge r.phase (r.applyOp op).phase ∨
      (r.phase = Phase.input ∧ (r.applyOp op).phase = Phase.lobby) := by
  cases op with
  | add u s t =>
    obtain ⟨ps, h⟩ := addParticipant_shape r u s t
    simp only [Room.applyOp]
    rw [h]
    exact Or.inl rfl
  | remove s =>
    obtain ⟨ps, h⟩ := removeParticipant_shape r s
    simp only [Room.applyOp]
    rw [h]
    exact Or.inl rfl
  | kick u =>
    obtain ⟨ps, h⟩ := kickParticipant_shape r u
    simp only [Room.applyOp]
    rw [h]
    exact Or.inl rfl
  | start =>
    simp only [Room.applyOp]
    unfold Room.startRound
    by_cases h : r.phase ≠ Phase.lobby ∨ r.participants.length < 2
    · rw [if_pos h]
      exact Or.inl rfl
    · rw [if_neg h]
      push_neg at h
      refine Or.inr (Or.inl ?_)
      unfold specPhaseEdge
      exact Or.inl ⟨h.1, rfl⟩
  | submit u v =>
    simp only [Room.applyOp]
    rcases submitNumber_snd_shape r u v with h | h
    · rw [h]; exact Or.inl rfl
    · rw [h]; exact Or.inl rfl
  | revealOp f =>
    simp only [Room.applyOp]
    rcases revealRun_phase r f with h | h
    · exact Or.inl h
    · refine Or.inr (Or.inl ?_)
      unfold specPhaseEdge
      exact Or.inr (Or.inl ⟨h.1, h.2⟩)
  | toLobby =>
    cases hp : r.phase with
    | lobby => exact Or.inl (by simp [Room.applyOp, Room.backToLobby, hp])
    | input => exact Or.inr (Or.inr ⟨rfl, rfl⟩)
    | revealed =>
      refine Or.inr (Or.inl ?_)
      unfold specPhaseEdge
      exact Or.inr (Or.inr ⟨rfl, rfl⟩)

/-- C6 counterexample: a reachable room in `input` phase from which
`backToLobby` moves the phase directly to `lobby` — a transition the
claimed cycle lobby→input→revealed→lobby does not contain. -/
theorem phase_input_to_lobby :
    RoomReachable c6Room ∧ c6Room.phase = Phase.input ∧
      (c6Room.applyOp RoomOp.toLobby).phase = Phase.lobby ∧
      ¬ specPhaseEdge Phase.input Phase.lobby :=
  ⟨RoomReachable.step RoomOp.start
      (RoomReachable.step (RoomOp.add "B" 2 1)
        (RoomReachable.step (RoomOp.add "A" 1 0) (RoomReachable.init "R"))),
    by decide, by decide, by decide⟩

/-! ### Membership and key lemmas for submissions maps -/

theorem alistHas_iff (l : List (String × ℚ)) (k : String) :
    alistHas l k = true ↔ k ∈ l.map Prod.fst := by
  unfold alistHas
  simp only [List.any_eq_true, List.mem_map, decide_eq_true_eq]

theorem defaultMissing_cons (p : Participant) (rest : List Participant)
    (subs : List (String × ℚ)) :
    defaultMissing (p :: rest) subs =
      defaultMissing rest (if alistHas subs p.name then subs else subs ++ [(p.name, 1)]) := by
  rfl

theorem mem_defaultMissing (frozen : List Participant) (subs : List (String × ℚ))
    (kv : String × ℚ) (h : kv ∈ defaultMissing frozen subs) :
    kv ∈ subs ∨ (kv.2 = 1 ∧ kv.1 ∈ frozen.map Participant.name) := by
  induction frozen generalizing subs with
  | nil => exact Or.inl h
  | cons p rest ih =>
    rw [defaultMissing_cons] at h
    by_cases hh : alistHas subs p.name
    · rw [if_pos hh] at h
      rcases ih _ h with h2 | h2
      · exact Or.inl h2
      · refine Or.inr ⟨h2.1, ?_⟩
        simp only [List.map_cons, List.mem_cons]
        exact Or.inr h2.2
    · rw [if_neg hh] at h
      rcases ih _ h with h2 | h2
      · rcases List.mem_append.mp h2 with h3 | h3
        · exact Or.inl h3
        · simp only [List.mem_singleton] at h3
          subst h3
          refine Or.inr ⟨rfl, ?_⟩
          simp
      · refine Or.inr ⟨h2.1, ?_⟩
        simp only [List.map_cons, List.mem_cons]
        exact Or.inr h2.2

theorem keys_defaultMissing_nodup (frozen : List Participant) (subs : List (String × ℚ))
    (h : (subs.map Prod.fst).Nodup) :
    ((defaultMissing frozen subs).map Prod.fst).Nodup := by
  induction frozen generalizing subs with
  | nil => exact h
  | cons p rest ih =>
    rw [defaultMissing_cons]
    by_cases hh : alistHas subs p.name
    · rw [if_pos hh]
      exact ih _ h
    · rw [if_neg hh]
      refine ih _ ?_
      rw [List.map_append]
      simp only [List.map_cons, List.map_nil]
      rw [List.nodup_append]
      refine ⟨h, List.nodup_singleton _, ?_⟩
      intro a ha hb
      simp only [List.mem_singleton] at hb
      subst hb
      have hno : ¬ p.name ∈ subs.map Prod.fst := by
        simpa [alistHas_iff] using hh
      exact hno ha

theorem alistHas_append_right (l : List (String × ℚ)) (k : String) (v : ℚ) :
    alistHas (l ++ [(k, v)]) k = true := by
  rw [alistHas_iff, List.map_append]
  simp

theorem alistHas_mono_append (l l' : List (String × ℚ)) (k : String)
    (h : alistHas l k = true) : alistHas (l ++ l') k = true := by
  rw [alistHas_iff] at h ⊢
  rw [List.map_append]
  exact List.mem_append.mpr (Or.inl h)

theorem alistHas_defaultMissing_mono (frozen : List Participant)
    (subs : List (String × ℚ)) (k : String) (h : alistHas subs k = true) :
    alistHas (defaultMissing frozen subs) k = true := by
  induction frozen generalizing subs with
  | nil => exact h
  | cons p rest ih =>
    rw [defaultMissing_cons]
    by_cases hh : alistHas subs p.name
    · rw [if_pos hh]; exact ih _ h
    · rw [if_neg hh]; exact ih _ (alistHas_mono_append _ _ _ h)

theorem alistHas_defaultMissing_of_mem (frozen : List Participant)
    (subs : List (String × ℚ)) (p : Participant) (hp : p ∈ frozen) :
    alistHas (defaultMissing frozen subs) p.name = true := by
  induction frozen generalizing subs with
  | nil => cases hp
  | cons q rest ih =>
    rw [defaultMissing_cons]
    rcases List.mem_cons.mp hp with h | h
    · subst h
      by_cases hh : alistHas subs p.name
      · rw [if_pos hh]
        exact alistHas_defaultMissing_mono _ _ _ hh
      · rw [if_neg hh]
        exact alistHas_defaultMissing_mono _ _ _ (alistHas_append_right _ _ _)
    · by_cases hh : alistHas subs q.name
      · rw [if_pos hh]; exact ih _ h
      · rw [if_neg hh]; exact ih _ h

/-! ### Roster-shape lemmas on participant names and online flags -/

theorem updateFirst_map_name (ps : List Participant) (pred : Participant → Bool)
    (f : Participant → Participant) (hf : ∀ p, (f p).name = p.name) :
    (updateFirst ps pred f).map Participant.name = ps.map Participant.name := by
  induction ps with
  | nil => rfl
  | cons p rest ih =>
    unfold updateFirst
    by_cases h : pred p
    · simp [h, hf]
    · simp [h, ih]

theorem setHostOnFirstMatch_map_name (ps : List Participant) (w : Participant) :
    (setHostOnFirstMatch ps w).map Participant.name = ps.map Participant.name := by
  induction ps with
  | nil => rfl
  | cons p rest ih =>
    unfold setHostOnFirstMatch
    by_cases h : p = w
    · simp [h]
    · simp [h, ih]

theorem jsSort_perm (ps : List Participant) : (jsSortByJoinTime ps).Perm ps :=
  List.perm_insertionSort _ ps

theorem flagOff_map_name (ps : List Participant) :
    ((ps.map (fun p => { p with isHost := false })).map Participant.name)
      = ps.map Participant.name := by
  rw [List.map_map]
  rfl

theorem electHost_names_perm (r : Room) :
    ((r.electHost).participants.map Participant.name).Perm
      (r.participants.map Participant.name) := by
  unfold Room.electHost
  dsimp only
  split
  · rename_i w rest hsort
    rw [setHostOnFirstMatch_map_name, flagOff_map_name]
  · split
    · rename_i hempty p rest hsort
      have h1 : (({ p with isHost := true } : Participant) :: rest).map Participant.name
          = (p :: rest).map Participant.name := by simp
      rw [h1, ← hsort]
      have h2 := (jsSort_perm (r.participants.map (fun p => { p with isHost := false }))).map Participant.name
      rw [flagOff_map_name] at h2
      exact h2
    · rw [flagOff_map_name]

theorem checkAndTransferHost_names_perm (r : Room) :
    ((r.checkAndTransferHost).participants.map Participant.name).Perm
      (r.participants.map Participant.name) := by
  unfold Room.checkAndTransferHost
  split
  · split
    · exact List.Perm.refl _
    · exact electHost_names_perm r
  · exact electHost_names_perm r

/-! ### Arithmetic lemmas: `jsMod` on non-negative integer totals -/

theorem sum_den_one (l : List ℚ) (h : ∀ q ∈ l, q.den = 1) :
    ∃ Z : ℤ, l.sum = (Z : ℚ) ∧ ((∀ q ∈ l, (1 : ℚ) ≤ q) → 0 ≤ Z) := by
  induction l with
  | nil => exact ⟨0, by simp, fun _ => le_refl 0⟩
  | cons q rest ih =>
    obtain ⟨Z, hZ, hZ0⟩ := ih (fun x hx => h x (List.mem_cons_of_mem _ hx))
    have hq : ((q.num : ℤ) : ℚ) = q :=
      (Rat.den_eq_one_iff q).mp (h q (List.mem_cons_self _ _))
    refine ⟨q.num + Z, ?_, ?_⟩
    · have hc : ((q.num + Z : ℤ) : ℚ) = (q.num : ℚ) + (Z : ℚ) := by push_cast; ring
      rw [List.sum_cons, hZ, hc, hq]
    · intro hge
      have h1 : (1 : ℚ) ≤ q := hge q (List.mem_cons_self _ _)
      have h2 : (0 : ℚ) ≤ (q.num : ℚ) := by
        rw [hq]
        exact le_trans (by norm_num) h1
      have h3 : (0 : ℤ) ≤ q.num := by exact_mod_cast h2
      have h4 : 0 ≤ Z := hZ0 (fun x hx => hge x (List.mem_cons_of_mem _ hx))
      omega

theorem jsMod_intCast (Z : ℤ) (n : ℕ) (hn : 0 < n) (hZ : 0 ≤ Z) :
    jsMod (Z : ℚ) (n : ℚ) = ((Z % (n : ℤ) : ℤ) : ℚ) := by
  unfold jsMod ratTrunc
  have hdiv : (0 : ℚ) ≤ (Z : ℚ) / (n : ℚ) := by
    apply div_nonneg
    · exact_mod_cast hZ
    · exact_mod_cast Nat.zero_le n
  rw [if_neg (by exact not_lt.mpr hdiv)]
  have hfl : ⌊(Z : ℚ) / (n : ℚ)⌋ = Z / (n : ℤ) := by
    exact_mod_cast Rat.floor_intCast_div_natCast Z n
  rw [hfl]
  have hmod : Z % (n : ℤ) = Z - (n : ℤ) * (Z / (n : ℤ)) := Int.emod_def Z (n : ℤ)
  rw [hmod]
  push_cast
  ring

theorem emod_bounds (Z : ℤ) (n : ℕ) (hn : 0 < n) :
    0 ≤ Z % (n : ℤ) ∧ Z % (n : ℤ) < (n : ℤ) := by
  constructor
  · exact Int.emod_nonneg Z (by exact_mod_cast Nat.pos_iff_ne_zero.mp hn)
  · exact Int.emod_lt_of_pos Z (by exact_mod_cast hn)

theorem toArrayIndex_intCast (z : ℤ) (len : Nat) :
    toArrayIndex ((z : ℚ)) len = if 0 ≤ z ∧ z < (len : ℤ) then some z.toNat else none := by
  unfold toArrayIndex
  have hnum : ((z : ℚ)).num = z := Rat.num_intCast z
  have hden : ((z : ℚ)).den = 1 := Rat.den_intCast z
  rw [hnum, hden]
  by_cases h : 0 ≤ z ∧ z < (len : ℤ)
  · rw [if_pos ⟨h.1, rfl, h.2⟩, if_pos h]
  · rw [if_neg (fun hc => h ⟨hc.1, hc.2.2⟩), if_neg h]

theorem jsMod_decomp (a b : ℚ) : a = jsMod a b + b * (ratTrunc (a / b) : ℚ) := by
  unfold jsMod
  ring

theorem jsMod_lt_of_nonneg (a b : ℚ) (hb : 0 < b) (ha : 0 ≤ a) : jsMod a b < b := by
  unfold jsMod ratTrunc
  rw [if_neg (not_lt.mpr (div_nonneg ha hb.le))]
  have h1 : a / b < (⌊a / b⌋ : ℚ) + 1 := Int.lt_floor_add_one _
  have h2 : a < ((⌊a / b⌋ : ℚ) + 1) * b := (div_lt_iff hb).mp h1
  nlinarith

theorem jsMod_nonpos (a b : ℚ) (hb : 0 < b) (ha : a ≤ 0) : jsMod a b ≤ 0 := by
  unfold jsMod ratTrunc
  by_cases h : a / b < 0
  · rw [if_pos h]
    have h1 : a / b ≤ (⌈a / b⌉ : ℚ) := Int.le_ceil _
    have h2 : a ≤ (⌈a / b⌉ : ℚ) * b := (div_le_iff hb).mp h1
    nlinarith
  · rw [if_neg h]
    have h0 : 0 ≤ a / b := not_lt.mp h
    have hfl : (0 : ℚ) ≤ (⌊a / b⌋ : ℚ) := by exact_mod_cast Int.floor_nonneg.mpr h0
    nlinarith

/-- Inversion of a successful winner-index computation: the total is
an integer `T`, the remainder is the mathematical `T mod n`, and the
index follows the shifted mapping. -/
theorem reveal_index_int_inv (r : Room) (f : Bool) (i : Nat)
    (hidx : toArrayIndex (revealWinnerIndexQ r f) r.frozenOrder.length = some i) :
    ∃ T R : ℤ,
      revealTotal r f = (T : ℚ) ∧
        revealRemainder r f = (R : ℚ) ∧
        R = T % (r.frozenOrder.length : ℤ) ∧
        0 ≤ R ∧ R < (r.frozenOrder.length : ℤ) ∧
        (R = 0 → i = r.frozenOrder.length - 1) ∧
        (R ≠ 0 → (i : ℤ) = R - 1) := by
  have hW := hidx
  unfold toArrayIndex at hW
  split at hW
  case isFalse => exact Option.noConfusion hW
  case isTrue hcond =>
  obtain ⟨hWnum, hWden, hWlt⟩ := hcond
  have hi : i = (revealWinnerIndexQ r f).num.toNat := by
    simpa using hW.symm
  have hWint : (((revealWinnerIndexQ r f).num : ℤ) : ℚ) = revealWinnerIndexQ r f :=
    (Rat.den_eq_one_iff _).mp hWden
  have hn : 0 < (r.frozenOrder.length : ℤ) := lt_of_le_of_lt hWnum hWlt
  have hnq : (0 : ℚ) < (r.frozenOrder.length : ℚ) := by exact_mod_cast hn
  have hdecomp := jsMod_decomp (revealTotal r f) (r.frozenOrder.length : ℚ)
  set c : ℤ := ratTrunc (revealTotal r f / (r.frozenOrder.length : ℚ)) with hc
  have hj : jsMod (revealTotal r f) (r.frozenOrder.length : ℚ) = revealRemainder r f := rfl
  rw [hj] at hdecomp
  by_cases hrem : revealRemainder r f = 0
  · refine ⟨(r.frozenOrder.length : ℤ) * c, 0, ?_, by simpa using hrem, by simp, le_refl 0, hn,
      fun _ => ?_, fun hne => absurd rfl hne⟩
    · rw [hdecomp, hrem]
      push_cast
      ring
    · have hWval : revealWinnerIndexQ r f = (r.frozenOrder.length : ℚ) - 1 := by
        unfold revealWinnerIndexQ
        rw [if_pos hrem]
      have hWnum2 : (revealWinnerIndexQ r f).num = (r.frozenOrder.length : ℤ) - 1 := by
        rw [hWval]
        have hcast : ((r.frozenOrder.length : ℚ) - 1) = (((r.frozenOrder.length : ℤ) - 1 : ℤ) : ℚ) := by
          push_cast
          ring
        rw [hcast, Rat.num_intCast]
      rw [hi, hWnum2]
      omega
  · have hWval : revealWinnerIndexQ r f = revealRemainder r f - 1 := by
      unfold revealWinnerIndexQ
      rw [if_neg hrem]
    have hremval : revealRemainder r f = ((((revealWinnerIndexQ r f).num + 1 : ℤ)) : ℚ) := by
      push_cast
      rw [hWint, hWval]
      ring
    set R : ℤ := (revealWinnerIndexQ r f).num + 1 with hR
    have hRpos : 0 < R := by omega
    have hremq : (0 : ℚ) < revealRemainder r f := by
      rw [hremval]
      exact_mod_cast hRpos
    have htotpos : (0 : ℚ) ≤ revealTotal r f := by
      by_contra hcon
      push_neg at hcon
      have hnp := jsMod_nonpos (revealTotal r f) (r.frozenOrder.length : ℚ) hnq hcon.le
      rw [hj] at hnp
      linarith
    have hremlt : revealRemainder r f < (r.frozenOrder.length : ℚ) := by
      have hlt := jsMod_lt_of_nonneg (revealTotal r f) (r.frozenOrder.length : ℚ) hnq htotpos
      rw [hj] at hlt
      exact hlt
    have hRlt : R < (r.frozenOrder.length : ℤ) := by
      have hcast : ((R : ℤ) : ℚ) < ((r.frozenOrder.length : ℤ) : ℚ) := by
        rw [← hremval]
        exact_mod_cast hremlt
      exact_mod_cast hcast
    refine ⟨R + (r.frozenOrder.length : ℤ) * c, R, ?_, hremval, ?_, hRpos.le, hRlt,
      fun h0 => absurd h0 (by omega), fun _ => ?_⟩
    · rw [hdecomp, hremval]
      push_cast
      ring
    · rw [Int.add_mul_emod_self_left]
      exact (Int.emod_eq_of_lt hRpos.le hRlt).symm
    · rw [hi]
      have hnum : (revealWinnerIndexQ r f).num = R - 1 := by omega
      rw [Int.toNat_of_nonneg hWnum, hnum]

/-! ### The room invariant holds in every reachable room -/

theorem roomInv_mkNew (name : String) : RoomInv (Room.mkNew name) := by
  constructor <;> simp [Room.mkNew]

theorem updateFirst_names_nodup (ps : List Participant) (pred : Participant → Bool)
    (f : Participant → Participant) (hf : ∀ p, (f p).name = p.name)
    (h : (ps.map Participant.name).Nodup) :
    ((updateFirst ps pred f).map Participant.name).Nodup := by
  rw [updateFirst_map_name _ _ _ hf]
  exact h

theorem roomInv_checkAndTransferHost (r : Room) (h : RoomInv r) :
    RoomInv r.checkAndTransferHost := by
  obtain ⟨ps, hps⟩ := checkAndTransferHost_shape r
  have hperm := checkAndTransferHost_names_perm r
  rw [hps] at hperm ⊢
  refine ⟨h.frozenBig, h.subsGE, ?_, h.subsNodup, h.subsInFrozen, h.frozenNodup, h.resultNone⟩
  dsimp only at hperm ⊢
  exact hperm.symm.nodup h.partNodup

theorem revealSubs_ge (r : Room) (f : Bool) (h : RoomInv r) :
    ∀ kv ∈ revealSubs r f, (1 : ℚ) ≤ kv.2 := by
  intro kv hkv
  unfold revealSubs at hkv
  split at hkv
  · rcases mem_defaultMissing _ _ _ hkv with hold | hone
    · exact h.subsGE kv hold
    · rw [hone.1]
  · exact h.subsGE kv hkv

theorem revealSubs_keys_nodup (r : Room) (f : Bool) (h : RoomInv r) :
    ((revealSubs r f).map Prod.fst).Nodup := by
  unfold revealSubs
  split
  · exact keys_defaultMissing_nodup _ _ h.subsNodup
  · exact h.subsNodup

theorem revealSubs_in_frozen (r : Room) (f : Bool) (h : RoomInv r) :
    ∀ kv ∈ revealSubs r f, kv.1 ∈ r.frozenOrder.map Participant.name := by
  intro kv hkv
  unfold revealSubs at hkv
  split at hkv
  · rcases mem_defaultMissing _ _ _ hkv with hold | hone
    · exact h.subsInFrozen kv hold
    · exact hone.2
  · exact h.subsInFrozen kv hkv

theorem roomInv_applyOp (r : Room) (op : RoomOp) (h : RoomInv r) :
    RoomInv (r.applyOp op) := by
  cases op with
  | add u s t =>
    simp only [Room.applyOp]
    unfold Room.addParticipant
    split
    case isTrue hex =>
      refine ⟨h.frozenBig, h.subsGE, ?_, h.subsNodup, h.subsInFrozen, h.frozenNodup, h.resultNone⟩
      dsimp only
      exact updateFirst_names_nodup _ _ _ (fun p => rfl) h.partNodup
    case isFalse hex =>
      refine ⟨h.frozenBig, h.subsGE, ?_, h.subsNodup, h.subsInFrozen, h.frozenNodup, h.resultNone⟩
      dsimp only
      rw [List.map_append]
      simp only [List.map_cons, List.map_nil]
      rw [List.nodup_append]
      refine ⟨h.partNodup, List.nodup_singleton _, ?_⟩
      intro a ha hb
      simp only [List.mem_singleton] at hb
      subst hb
      have hall : ∀ p ∈ r.participants, ¬ (p.name = a) := by
        simpa [List.any_eq_true] using hex
      obtain ⟨p, hp, hpn⟩ := List.mem_map.mp ha
      exact hall p hp hpn
  | remove s =>
    simp only [Room.applyOp]
    unfold Room.removeParticipant
    split
    case isTrue hex =>
      refine roomInv_checkAndTransferHost _
        ⟨h.frozenBig, h.subsGE, ?_, h.subsNodup, h.subsInFrozen, h.frozenNodup, h.resultNone⟩
      dsimp only
      exact updateFirst_names_nodup _ _ _ (fun p => rfl) h.partNodup
    case isFalse => exact h
  | kick u =>
    simp only [Room.applyOp]
    unfold Room.kickParticipant
    split
    · exact h
    · split
      · exact h
      · rename_i a i hfind b kicked hget
        dsimp only
        refine roomInv_checkAndTransferHost _
          ⟨h.frozenBig, h.subsGE, ?_, h.subsNodup, h.subsInFrozen, h.frozenNodup, h.resultNone⟩
        exact List.Nodup.sublist
          ((List.eraseIdx_sublist r.participants i).map Participant.name) h.partNodup
  | start =>
    simp only [Room.applyOp]
    unfold Room.startRound
    split
    case isTrue => exact h
    case isFalse hcond =>
      push_neg at hcond
      dsimp only
      constructor
      · intro _
        exact hcond.2
      · intro kv hkv
        simp at hkv
      · exact h.partNodup
      · simp
      · intro kv hkv
        simp at hkv
      · exact h.partNodup
      · intro _
        exact ⟨rfl, rfl⟩
  | submit u v =>
    simp only [Room.applyOp]
    unfold Room.submitNumber
    split
    case isTrue => exact h
    case isFalse h1 =>
      split
      case isTrue => exact h
      case isFalse h2 =>
        split
        case isTrue => exact h
        case isFalse h3 =>
          dsimp only
          push_neg at h2 h3
          constructor
          · exact h.frozenBig
          · intro kv hkv
            rcases mem_alistSet _ _ _ _ hkv with rfl | hold
            · exact h3.1
            · exact h.subsGE kv hold
          · exact h.partNodup
          · exact keys_nodup_alistSet _ _ _ h.subsNodup
          · intro kv hkv
            rcases mem_alistSet _ _ _ _ hkv with rfl | hold
            · obtain ⟨p, hp, hpu⟩ : ∃ p ∈ r.frozenOrder, p.name = u := by
                simpa [List.any_eq_true] using h2
              exact List.mem_map.mpr ⟨p, hp, hpu⟩
            · exact h.subsInFrozen kv hold
          · exact h.frozenNodup
          · exact h.resultNone
  | revealOp f =>
    simp only [Room.applyOp]
    unfold Room.revealRun
    cases hrev : r.reveal f with
    | none =>
      constructor
      · exact h.frozenBig
      · exact revealSubs_ge r f h
      · exact h.partNodup
      · exact revealSubs_keys_nodup r f h
      · exact revealSubs_in_frozen r f h
      · exact h.frozenNodup
      · exact h.resultNone
    | some br =>
      obtain ⟨b, r'⟩ := br
      dsimp only
      cases b with
      | false =>
        rw [reveal_eq_some_false r f r' hrev]
        exact h
      | true =>
        obtain ⟨hph, -, i, wp, hidx, hwp, hr'⟩ := reveal_success_inv r f r' hrev
        rw [hr']
        constructor
        · intro hx
          simp at hx
        · exact revealSubs_ge r f h
        · exact h.partNodup
        · exact revealSubs_keys_nodup r f h
        · exact revealSubs_in_frozen r f h
        · exact h.frozenNodup
        · intro hx
          exact absurd rfl hx
  | toLobby =>
    simp only [Room.applyOp, Room.backToLobby]
    constructor
    · intro hx
      simp at hx
    · intro kv hkv
      simp at hkv
    · exact h.partNodup
    · simp
    · intro kv hkv
      simp at hkv
    · simp
    · intro _
      exact ⟨rfl, rfl⟩

theorem roomInv_of_reachable (r : Room) (h : RoomReachable r) : RoomInv r := by
  induction h with
  | init name => exact roomInv_mkNew name
  | step op hr ih => exact roomInv_applyOp _ op ih

/-- With integral values ≥ 1 (after any defaulting) and a non-empty
frozen roster, the winner-index computation always produces a valid
array index. -/
theorem reveal_index_of_int (r : Room) (f : Bool)
    (hn : 0 < r.frozenOrder.length)
    (hint : ∀ kv ∈ revealSubs r f, (kv.2).den = 1)
    (hge : ∀ kv ∈ revealSubs r f, (1 : ℚ) ≤ kv.2) :
    ∃ i, toArrayIndex (revealWinnerIndexQ r f) r.frozenOrder.length = some i := by
  obtain ⟨Z, hZ, hZ0⟩ := sum_den_one ((revealSubs r f).map Prod.snd) (by
    intro q hq
    obtain ⟨kv, hkv, rfl⟩ := List.mem_map.mp hq
    exact hint kv hkv)
  have hZ0' : 0 ≤ Z := hZ0 (by
    intro q hq
    obtain ⟨kv, hkv, rfl⟩ := List.mem_map.mp hq
    exact hge kv hkv)
  have htot : revealTotal r f = (Z : ℚ) := hZ
  have hrem : revealRemainder r f = ((Z % (r.frozenOrder.length : ℤ) : ℤ) : ℚ) := by
    unfold revealRemainder
    rw [htot]
    exact jsMod_intCast Z _ hn hZ0'
  obtain ⟨hb1, hb2⟩ := emod_bounds Z r.frozenOrder.length hn
  by_cases h0 : Z % (r.frozenOrder.length : ℤ) = 0
  · have hWval : revealWinnerIndexQ r f = (((r.frozenOrder.length : ℤ) - 1 : ℤ) : ℚ) := by
      unfold revealWinnerIndexQ
      rw [if_pos (by rw [hrem, h0]; simp)]
      push_cast
      ring
    refine ⟨((r.frozenOrder.length : ℤ) - 1).toNat, ?_⟩
    rw [hWval, toArrayIndex_intCast, if_pos ⟨by omega, by omega⟩]
  · have hremne : revealRemainder r f ≠ 0 := by
      rw [hrem]
      exact_mod_cast h0
    have hWval : revealWinnerIndexQ r f
        = ((Z % (r.frozenOrder.length : ℤ) - 1 : ℤ) : ℚ) := by
      unfold revealWinnerIndexQ
      rw [if_neg hremne, hrem]
      push_cast
      ring
    refine ⟨(Z % (r.frozenOrder.length : ℤ) - 1).toNat, ?_⟩
    rw [hWval, toArrayIndex_intCast, if_pos ⟨by omega, by omega⟩]

/-! ### C10: winner-index safety -/

/-- C10 (amended): in every reachable input-phase room `frozenOrder`
has at least 2 elements, and whenever every stored submission value is
an integer — which is all the spec's data model permits — the reveal
computation produces a valid winner index `0 ≤ winnerIndex <
|frozenOrder|` and never faults; on every successful reveal the stored
`actualWinnerIndex` is in bounds.  Without the integrality proviso the
claim fails: a reachable room can hold the value 3/2 (C2), making the
computed `winnerIndex` fractional and `frozenOrder[winnerIndex]`
undefined. -/
theorem winnerIndex_safety_amended (r : Room) (hr : RoomReachable r) :
    (r.phase = Phase.input → 2 ≤ r.frozenOrder.length) ∧
      ((∀ kv ∈ r.submissions, (kv.2).den = 1) → ∀ f, r.reveal f ≠ none) ∧
      (∀ f r', r.reveal f = some (true, r') →
        ∃ res, r'.result = some res ∧ res.actualWinnerIndex < r.frozenOrder.length) := by
  have hinv := roomInv_of_reachable r hr
  refine ⟨hinv.frozenBig, ?_, ?_⟩
  · intro hint f
    by_cases hph : r.phase = Phase.input
    · have hn : 0 < r.frozenOrder.length := by
        have := hinv.frozenBig hph
        omega
      have hint2 : ∀ kv ∈ revealSubs r f, (kv.2).den = 1 := by
        intro kv hkv
        unfold revealSubs at hkv
        split at hkv
        · rcases mem_defaultMissing _ _ _ hkv with hold | hone
          · exact hint kv hold
          · rw [hone.1]
            rfl
        · exact hint kv hkv
      by_cases hpass : ¬ f = true ∧ ¬ r.canReveal = true
      · unfold Room.reveal
        rw [if_neg (by simpa using hph), if_pos hpass]
        exact Option.noConfusion
      · obtain ⟨i, hidx⟩ := reveal_index_of_int r f hn hint2 (revealSubs_ge r f hinv)
        obtain ⟨r', hr'⟩ := reveal_success_of r f hph
          (by rcases not_and_or.mp hpass with hc | hc
              · exact Or.inl (by simpa using hc)
              · exact Or.inr (by simpa using hc)) i hidx
        rw [hr']
        exact Option.noConfusion
    · rw [reveal_not_input r f hph]
      exact Option.noConfusion
  · intro f r' hsucc
    obtain ⟨hph, -, i, wp, hidx, hwp, hr'⟩ := reveal_success_inv r f r' hsucc
    refine ⟨_, by rw [hr'], ?_⟩
    unfold toArrayIndex at hidx
    split at hidx
    · rename_i hcond
      have hi : i = (revealWinnerIndexQ r f).num.toNat := by simpa using hidx.symm
      have := hcond.2.2
      have h1 := hcond.1
      simp only [hr']
      omega
    · exact Option.noConfusion hidx

/-- C10 counterexample: a reachable input-phase room (round started
with two members, then `"P"` submitted 3/2) where the forced-reveal
index computation faults: the computed winnerIndex is −1/2, so
`frozenOrder[winnerIndex]` is undefined and reveal throws instead of
indexing safely. -/
theorem winnerIndex_unsafe_noninteger :
    RoomReachable c10BadRoom ∧ c10BadRoom.phase = Phase.input ∧
      c10BadRoom.reveal true = none :=
  ⟨RoomReachable.step (RoomOp.submit "P" (mkRat 3 2))
      (RoomReachable.step RoomOp.start
        (RoomReachable.step (RoomOp.add "Q" 6 11)
          (RoomReachable.step (RoomOp.add "P" 5 10) (RoomReachable.init "S")))),
    by with_unfolding_all decide, by with_unfolding_all decide⟩

theorem winnerIndex_safety_amended_witness :
    2 ≤ c6Room.frozenOrder.length ∧ c6Room.reveal true ≠ none := by
  have h := winnerIndex_safety_amended c6Room
    (RoomReachable.step RoomOp.start
      (RoomReachable.step (RoomOp.add "B" 2 1)
        (RoomReachable.step (RoomOp.add "A" 1 0) (RoomReachable.init "R"))))
  exact ⟨h.1 (by decide), h.2.1 (by decide) true⟩

theorem revealSubs_int (r : Room) (f : Bool)
    (hint : ∀ kv ∈ r.submissions, (kv.2).den = 1) :
    ∀ kv ∈ revealSubs r f, (kv.2).den = 1 := by
  intro kv hkv
  unfold revealSubs at hkv
  split at hkv
  · rcases mem_defaultMissing _ _ _ hkv with hold | hone
    · exact hint kv hold
    · rw [hone.1]
      rfl
  · exact hint kv hkv

theorem canReveal_iff (r : Room) (hinv : RoomInv r) :
    r.canReveal = true ↔ ∀ p ∈ r.frozenOrder, alistHas r.submissions p.name = true := by
  have hkeysub : ∀ k ∈ r.submissions.map Prod.fst, k ∈ r.frozenOrder.map Participant.name := by
    intro k hk
    obtain ⟨kv, hkv, rfl⟩ := List.mem_map.mp hk
    exact hinv.subsInFrozen kv hkv
  have hlen1 : (r.submissions.map Prod.fst).length = r.submissions.length :=
    List.length_map _ _
  have hlen2 : (r.frozenOrder.map Participant.name).length = r.frozenOrder.length :=
    List.length_map _ _
  have hsubset : (r.submissions.map Prod.fst).toFinset
      ⊆ (r.frozenOrder.map Participant.name).toFinset := by
    intro x hx
    rw [List.mem_toFinset] at hx ⊢
    exact hkeysub x hx
  have hcard1 : (r.submissions.map Prod.fst).toFinset.card = r.submissions.length := by
    rw [List.toFinset_card_of_nodup hinv.subsNodup, hlen1]
  have hcard2 : (r.frozenOrder.map Participant.name).toFinset.card = r.frozenOrder.length := by
    rw [List.toFinset_card_of_nodup hinv.frozenNodup, hlen2]
  have hcan : r.canReveal = true ↔ r.submissions.length = r.frozenOrder.length := by
    unfold Room.canReveal
    simp
  rw [hcan]
  constructor
  · intro hlen p hp
    have heq : (r.submissions.map Prod.fst).toFinset
        = (r.frozenOrder.map Participant.name).toFinset := by
      apply Finset.eq_of_subset_of_card_le hsubset
      rw [hcard1, hcard2, hlen]
    rw [alistHas_iff]
    have hpn : p.name ∈ (r.frozenOrder.map Participant.name).toFinset := by
      rw [List.mem_toFinset]
      exact List.mem_map.mpr ⟨p, hp, rfl⟩
    rw [← heq, List.mem_toFinset] at hpn
    exact hpn
  · intro hall
    have hsubset2 : (r.frozenOrder.map Participant.name).toFinset
        ⊆ (r.submissions.map Prod.fst).toFinset := by
      intro x hx
      rw [List.mem_toFinset] at hx ⊢
      obtain ⟨p, hp, rfl⟩ := List.mem_map.mp hx
      rw [← alistHas_iff]
      exact hall p hp
    have h1 := Finset.card_le_card hsubset
    have h2 := Finset.card_le_card hsubset2
    omega

/-! ### C3: reveal success and failure conditions -/

/-- C3 (amended): in every reachable input-phase room whose stored
submission values are integers (all the spec's data model permits),
`reveal(false)` succeeds exactly when every `frozenOrder` member has a
submission, and `reveal(true)` always succeeds, defaulting missing
submissions to 1 first; any `reveal(false)` that returns `false`
mutates nothing, and from a phase other than `input` both calls return
`false` without mutation.  Without the integrality proviso the claim
fails: a reachable room holding the value 3/2 makes `reveal(true)`
throw instead of returning true. -/
theorem reveal_phase_spec_amended (r : Room) (hr : RoomReachable r)
    (hint : ∀ kv ∈ r.submissions, (kv.2).den = 1) :
    (r.phase = Phase.input →
        ((∃ r', r.reveal false = some (true, r')) ↔
          ∀ p ∈ r.frozenOrder, alistHas r.submissions p.name = true) ∧
        (∃ r', r.reveal true = some (true, r'))) ∧
      (∀ r', r.reveal false = some (false, r') → r' = r) ∧
      (r.phase ≠ Phase.input →
        r.reveal false = some (false, r) ∧ r.reveal true = some (false, r)) := by
  have hinv := roomInv_of_reachable r hr
  refine ⟨?_, fun r' h => reveal_eq_some_false r false r' h,
    fun hph => ⟨reveal_not_input r false hph, reveal_not_input r true hph⟩⟩
  intro hph
  have hn : 0 < r.frozenOrder.length := by
    have := hinv.frozenBig hph
    omega
  constructor
  · constructor
    · rintro ⟨r', hr'⟩
      have hcan := (reveal_success_inv r false r' hr').2.1 rfl
      exact (canReveal_iff r hinv).mp hcan
    · intro hall
      have hcan := (canReveal_iff r hinv).mpr hall
      obtain ⟨i, hidx⟩ := reveal_index_of_int r false hn
        (revealSubs_int r false hint) (revealSubs_ge r false hinv)
      exact reveal_success_of r false hph (Or.inr hcan) i hidx
  · obtain ⟨i, hidx⟩ := reveal_index_of_int r true hn
      (revealSubs_int r true hint) (revealSubs_ge r true hinv)
    exact reveal_success_of r true hph (Or.inl rfl) i hidx

/-- C3 counterexample: a reachable input-phase room holding the
non-integer submission 3/2, from which `reveal(true)` does not return
true — the winner-index computation throws — though the claim says a
forced reveal from `input` always succeeds. -/
theorem reveal_force_crash :
    RoomReachable c3BadRoom ∧ c3BadRoom.phase = Phase.input ∧
      c3BadRoom.reveal true = none :=
  ⟨RoomReachable.step (RoomOp.submit "A" (mkRat 3 2))
      (RoomReachable.step RoomOp.start
        (RoomReachable.step (RoomOp.add "B" 2 1)
          (RoomReachable.step (RoomOp.add "A" 1 0) (RoomReachable.init "R")))),
    by with_unfolding_all decide, by with_unfolding_all decide⟩

theorem reveal_phase_spec_amended_witness :
    (∃ r', c6Room.reveal true = some (true, r')) ∧
      ((∃ r', c6Room.reveal false = some (true, r')) ↔
        ∀ p ∈ c6Room.frozenOrder, alistHas c6Room.submissions p.name = true) := by
  have h := reveal_phase_spec_amended c6Room
    (RoomReachable.step RoomOp.start
      (RoomReachable.step (RoomOp.add "B" 2 1)
        (RoomReachable.step (RoomOp.add "A" 1 0) (RoomReachable.init "R"))))
    (by decide)
  exact ⟨(h.1 (by decide)).2, (h.1 (by decide)).1⟩

/-! ### C1: the winner computation on a successful reveal -/

/-- C1: on every successful reveal the total is an integer `T`, the
stored remainder (`result.index`) is `T mod n` for `n =
|frozenOrder|`, the stored array index (`result.actualWinnerIndex`)
is `n−1` when the remainder is 0 and `remainder−1` otherwise, the
winner is the name of `frozenOrder[winnerIndex]`, `result` carries
`{total, participantCount = n, remainder, winnerIndex, submissions
snapshot}`, and the phase becomes `revealed`.  In particular for n = 4:
total 9 yields `frozenOrder[0]`, total 8 yields `frozenOrder[3]`, and
total 10 yields `frozenOrder[1]`. -/
theorem reveal_result_spec :
    (∀ (r : Room) (f : Bool) (r' : Room), r.reveal f = some (true, r') →
      ∃ (res : RevealResult) (T : ℤ) (wp : Participant),
        r'.result = some res ∧
          r'.phase = Phase.revealed ∧
          r'.winner = some wp.name ∧
          res.participantCount = r.frozenOrder.length ∧
          res.submissions = r'.submissions ∧
          res.total = (res.submissions.map Prod.snd).sum ∧
          res.total = (T : ℚ) ∧
          res.index = ((T % (r.frozenOrder.length : ℤ) : ℤ) : ℚ) ∧
          (res.index = 0 → res.actualWinnerIndex = r.frozenOrder.length - 1) ∧
          (res.index ≠ 0 → (res.actualWinnerIndex : ℚ) = res.index - 1) ∧
          r.frozenOrder[res.actualWinnerIndex]? = some wp) ∧
      (room4Total9.reveal false).map (fun x => (x.1, x.2.winner))
          = some (true, some "W") ∧
      (room4Total8.reveal false).map (fun x => (x.1, x.2.winner))
          = some (true, some "Z") ∧
      (room4Total10.reveal false).map (fun x => (x.1, x.2.winner))
          = some (true, some "X") := by
  refine ⟨?_, by with_unfolding_all decide, by with_unfolding_all decide,
    by with_unfolding_all decide⟩
  intro r f r' hsucc
  obtain ⟨hph, hcan, i, wp, hidx, hwp, hr'⟩ := reveal_success_inv r f r' hsucc
  obtain ⟨T, R, hT, hR, hRT, hR0, hRlt, hidx0, hidxpos⟩ := reveal_index_int_inv r f i hidx
  refine ⟨{ total := revealTotal r f, participantCount := r.frozenOrder.length,
            index := revealRemainder r f, actualWinnerIndex := i,
            submissions := revealSubs r f }, T, wp,
    by rw [hr'], by rw [hr'], by rw [hr'], rfl, by rw [hr'], rfl, hT, ?_, ?_, ?_, hwp⟩
  · rw [hR, hRT]
  · intro h0
    apply hidx0
    have h0' : revealRemainder r f = 0 := h0
    rw [hR] at h0'
    exact_mod_cast h0'
  · intro hne
    have hne' : revealRemainder r f ≠ 0 := hne
    have hRne : R ≠ 0 := by
      intro hc
      rw [hR, hc] at hne'
      simp at hne'
    have hiz := hidxpos hRne
    show ((i : ℚ)) = revealRemainder r f - 1
    rw [hR]
    have hq : ((i : ℤ) : ℚ) = ((R - 1 : ℤ) : ℚ) := by exact_mod_cast hiz
    push_cast at hq ⊢
    linarith

theorem reveal_result_spec_witness :
    ∃ (r' : Room) (res : RevealResult) (T : ℤ) (wp : Participant),
      room4Total9.reveal false = some (true, r') ∧
        r'.result = some res ∧
        r'.phase = Phase.revealed ∧
        r'.winner = some wp.name ∧
        res.total = (T : ℚ) ∧
        res.index = ((T % (room4Total9.frozenOrder.length : ℤ) : ℤ) : ℚ) := by
  have hr' : room4Total9.reveal false = some (true,
      { room4Total9 with
        winner := some "W"
        submissions := room4Total9.submissions
        result := some { total := 9, participantCount := 4, index := 1,
                         actualWinnerIndex := 0,
                         submissions := room4Total9.submissions }
        phase := Phase.revealed }) := by
    with_unfolding_all decide
  obtain ⟨res, T, wp, h1, h2, h3, h4, h5, h6, h7, h8, h9, h10, h11⟩ :=
    reveal_result_spec.1 room4Total9 false _ hr'
  exact ⟨_, res, T, wp, hr', h1, h2, h3, h7, h8⟩

/-! ### C8: the snapshot never leaks submitted values -/

/-- C8: `getState()` never exposes submitted values during `input`:
two input-phase rooms that agree on everything except the submitted
numbers (same names having submitted, in the same stored order)
produce identical snapshots; the snapshot's `submissions` field maps
each submitted name to `true`; and in every reachable room whose phase
is not `revealed` the snapshot's `result` and `winner` are null. -/
theorem getState_no_leak :
    (∀ r1 r2 : Room, r1.phase = Phase.input →
      r1.name = r2.name → r1.participants = r2.participants → r1.phase = r2.phase →
      r1.result = r2.result → r1.winner = r2.winner →
      r1.submissions.map Prod.fst = r2.submissions.map Prod.fst →
      r1.getState = r2.getState) ∧
      (∀ r : Room, r.phase = Phase.input →
        (r.getState).submissions = some (r.submissions.map (fun kv => (kv.1, true)))) ∧
      (∀ r : Room, RoomReachable r → r.phase ≠ Phase.revealed →
        (r.getState).result = none ∧ (r.getState).winner = none) := by
  refine ⟨?_, ?_, ?_⟩
  · intro r1 r2 hph hn hp hph2 hres hw hkeys
    have e1 : ∀ (l : List (String × ℚ)),
        l.map (fun kv => (kv.1, true)) = (l.map Prod.fst).map (fun k => (k, true)) := by
      intro l
      rw [List.map_map]
      rfl
    have hsubs : r1.submissions.map (fun kv => (kv.1, true))
        = r2.submissions.map (fun kv => (kv.1, true)) := by
      rw [e1, e1, hkeys]
    unfold Room.getState
    rw [hn, hp, hph2, hres, hw, hsubs]
  · intro r hph
    unfold Room.getState
    dsimp only
    rw [if_pos hph]
  · intro r hr hph
    have hinv := roomInv_of_reachable r hr
    obtain ⟨h1, h2⟩ := hinv.resultNone hph
    exact ⟨h1, h2⟩

theorem getState_no_leak_witness :
    c8RoomA.getState = c8RoomB.getState ∧
      (c8RoomA.getState).submissions = some [("A", true), ("B", true)] := by
  have h := getState_no_leak
  refine ⟨h.1 c8RoomA c8RoomB (by decide) rfl rfl rfl rfl rfl (by decide), ?_⟩
  have h2 := h.2.1 c8RoomA (by decide)
  rw [h2]
  decide

/-! ### C7: host re-election -/

theorem jsSort_sorted (ps : List Participant) :
    List.Sorted (fun a b => a.joinTime ≤ b.joinTime) (jsSortByJoinTime ps) :=
  List.sorted_insertionSort _ ps

theorem jsSort_head_min (ps : List Participant) (w : Participant) (rest : List Participant)
    (h : jsSortByJoinTime ps = w :: rest) :
    ∀ q ∈ ps, w.joinTime ≤ q.joinTime := by
  intro q hq
  have hsorted := jsSort_sorted ps
  rw [h] at hsorted
  have hmem : q ∈ w :: rest := by
    rw [← h]
    exact ((jsSort_perm ps).symm.mem_iff).mp hq
  rcases List.mem_cons.mp hmem with rfl | hmem2
  · exact le_refl _
  · exact (List.sorted_cons.mp hsorted).1 q hmem2

theorem setHostOnFirstMatch_filter (ps : List Participant) (w : Participant)
    (hw : w ∈ ps) (hall : ∀ q ∈ ps, q.isHost = false) :
    (setHostOnFirstMatch ps w).filter (fun p => p.isHost)
      = [{ w with isHost := true }] := by
  induction ps with
  | nil => cases hw
  | cons p rest ih =>
    unfold setHostOnFirstMatch
    by_cases h : p = w
    · subst h
      rw [if_pos rfl]
      rw [List.filter_cons_of_pos (by simp)]
      have hrest : rest.filter (fun p => p.isHost) = [] := by
        rw [List.filter_eq_nil_iff]
        intro a ha
        simp [hall a (List.mem_cons_of_mem _ ha)]
      rw [hrest]
    · rw [if_neg h]
      rw [List.filter_cons_of_neg (by simp [hall p (List.mem_cons_self _ _)])]
      exact ih (List.mem_cons.mp hw |>.resolve_left (fun he => h he.symm))
        (fun q hq => hall q (List.mem_cons_of_mem _ hq))

/-- C7: after the host-re-election pass on a roster with pairwise
distinct join times whose current host (first `isHost` entry) is
missing or offline, exactly one participant carries `isHost`
afterwards: the online participant with the smallest `joinTime` when
anyone is online, else the earliest-joined participant of the
(non-empty) roster.  In particular, kicking the online host B from a
room joined in order A, B, C (all online) makes A the unique host. -/
theorem hostReelection_spec (r : Room)
    (hdist : (r.participants.map Participant.joinTime).Nodup)
    (hhost : ∀ h, r.participants.find? (fun p => p.isHost) = some h → h.online = false) :
    ((∃ p ∈ r.participants, p.online = true) →
      ∃ hst, (r.checkAndTransferHost).participants.filter (fun p => p.isHost) = [hst] ∧
        hst.online = true ∧
        (∀ q ∈ r.participants, q.online = true → hst.joinTime ≤ q.joinTime) ∧
        hst.name ∈ r.participants.map Participant.name) ∧
      ((∀ p ∈ r.participants, p.online = false) → r.participants ≠ [] →
        ∃ hst, (r.checkAndTransferHost).participants.filter (fun p => p.isHost) = [hst] ∧
          (∀ q ∈ r.participants, hst.joinTime ≤ q.joinTime)) ∧
      ((threeRoom.kickParticipant "B").2.participants.filter (fun p => p.isHost)).map
          Participant.name = ["A"] := by
  have helect : r.checkAndTransferHost = r.electHost := by
    unfold Room.checkAndTransferHost
    cases hf : r.participants.find? (fun p => p.isHost) with
    | none => rfl
    | some h0 => simp [hhost h0 hf]
  have hclf : ∀ q ∈ r.participants.map (fun p => { p with isHost := false }),
      q.isHost = false := by
    intro q hq
    obtain ⟨p, hp, rfl⟩ := List.mem_map.mp hq
    rfl
  refine ⟨?_, ?_, by decide⟩
  · rintro ⟨p0, hp0, hp0on⟩
    rw [helect]
    unfold Room.electHost
    dsimp only
    cases hsort : jsSortByJoinTime
        ((r.participants.map (fun p => { p with isHost := false })).filter
          (fun p => p.online)) with
    | nil =>
      exfalso
      have : ({ p0 with isHost := false } : Participant)
          ∈ (r.participants.map (fun p => { p with isHost := false })).filter
            (fun p => p.online) := by
        rw [List.mem_filter]
        exact ⟨List.mem_map.mpr ⟨p0, hp0, rfl⟩, by simpa using hp0on⟩
      have h2 : ({ p0 with isHost := false } : Participant)
          ∈ jsSortByJoinTime
            ((r.participants.map (fun p => { p with isHost := false })).filter
              (fun p => p.online)) := ((jsSort_perm _).mem_iff).mpr this
      rw [hsort] at h2
      cases h2
    | cons w rest =>
      have hwmem : w ∈ (r.participants.map (fun p => { p with isHost := false })).filter
          (fun p => p.online) := by
        have : w ∈ jsSortByJoinTime
            ((r.participants.map (fun p => { p with isHost := false })).filter
              (fun p => p.online)) := by
          rw [hsort]
          exact List.mem_cons_self _ _
        exact ((jsSort_perm _).mem_iff).mp this
      obtain ⟨hwmem2, hwon⟩ := List.mem_filter.mp hwmem
      refine ⟨{ w with isHost := true }, ?_, by simpa using hwon, ?_, ?_⟩
      · exact setHostOnFirstMatch_filter _ _ hwmem2 hclf
      · intro q hq hqon
        have : ({ q with isHost := false } : Participant)
            ∈ (r.participants.map (fun p => { p with isHost := false })).filter
              (fun p => p.online) := by
          rw [List.mem_filter]
          exact ⟨List.mem_map.mpr ⟨q, hq, rfl⟩, by simpa using hqon⟩
        have hle := jsSort_head_min _ _ _ hsort _ this
        exact hle
      · obtain ⟨p1, hp1, hp1e⟩ := List.mem_map.mp hwmem2
        have : ({ w with isHost := true } : Participant).name = p1.name := by
          rw [← hp1e]
        rw [this]
        exact List.mem_map.mpr ⟨p1, hp1, rfl⟩
  · intro halloff hne
    rw [helect]
    unfold Room.electHost
    dsimp only
    have hfilter : (r.participants.map (fun p => { p with isHost := false })).filter
        (fun p => p.online) = [] := by
      rw [List.filter_eq_nil_iff]
      intro a ha
      obtain ⟨p, hp, rfl⟩ := List.mem_map.mp ha
      simp [halloff p hp]
    rw [hfilter]
    rw [show jsSortByJoinTime ([] : List Participant) = [] from rfl]
    dsimp only
    cases hsort : jsSortByJoinTime (r.participants.map (fun p => { p with isHost := false })) with
    | nil =>
      exfalso
      apply hne
      have hlen := (jsSort_perm (r.participants.map (fun p => { p with isHost := false }))).length_eq
      rw [hsort] at hlen
      have hzero : r.participants.length = 0 := by
        simpa using hlen.symm
      exact List.length_eq_zero.mp hzero
    | cons p rest =>
      refine ⟨{ p with isHost := true }, ?_, ?_⟩
      · rw [List.filter_cons_of_pos (by simp)]
        have hrest : rest.filter (fun q => q.isHost) = [] := by
          rw [List.filter_eq_nil_iff]
          intro a ha
          have hamem : a ∈ jsSortByJoinTime (r.participants.map (fun p => { p with isHost := false })) := by
            rw [hsort]
            exact List.mem_cons_of_mem _ ha
          have : a ∈ r.participants.map (fun p => { p with isHost := false }) :=
            ((jsSort_perm _).mem_iff).mp hamem
          simp [hclf a this]
        rw [hrest]
      · intro q hq
        have hmem2 : ({ q with isHost := false } : Participant)
            ∈ r.participants.map (fun p => { p with isHost := false }) :=
          List.mem_map.mpr ⟨q, hq, rfl⟩
        have hle := jsSort_head_min _ _ _ hsort _ hmem2
        exact hle

theorem hostReelection_spec_witness :
    ∃ hst, (c7Room.checkAndTransferHost).participants.filter (fun p => p.isHost) = [hst] ∧
      hst.online = true ∧
      (∀ q ∈ c7Room.participants, q.online = true → hst.joinTime ≤ q.joinTime) ∧
      hst.name ∈ c7Room.participants.map Participant.name := by
  have hnone : c7Room.participants.find? (fun p => p.isHost) = none := by decide
  have h := hostReelection_spec c7Room (by decide)
    (fun h0 hf => by rw [hnone] at hf; cases hf)
  exact h.1 ⟨⟨"A", 1, false, true, 0⟩, by decide, rfl⟩

/-! ### C5: registry never keeps a room with no online participant -/

theorem mem_roomsSet (l : List (String × Room)) (k : String) (v : Room) (x : String × Room)
    (h : x ∈ roomsSet l k v) : x = (k, v) ∨ x ∈ l := by
  induction l with
  | nil => exact Or.inl (List.mem_singleton.mp h)
  | cons hd rest ih =>
    by_cases hh : hd.1 = k
    · simp only [roomsSet, if_pos hh, List.mem_cons] at h
      rcases h with h | h
      · exact Or.inl h
      · exact Or.inr (List.mem_cons_of_mem _ h)
    · simp only [roomsSet, if_neg hh, List.mem_cons] at h
      rcases h with h | h
      · exact Or.inr (h ▸ List.mem_cons_self _ _)
      · rcases ih h with h2 | h2
        · exact Or.inl h2
        · exact Or.inr (List.mem_cons_of_mem _ h2)

theorem roomsSet_roomsSet (l : List (String × Room)) (k : String) (v v' : Room) :
    roomsSet (roomsSet l k v) k v' = roomsSet l k v' := by
  induction l with
  | nil => simp [roomsSet]
  | cons hd rest ih =>
    by_cases hh : hd.1 = k
    · simp [roomsSet, hh]
    · simp [roomsSet, hh, ih]

theorem roomsGet_roomsSet_self (l : List (String × Room)) (k : String) (v : Room) :
    roomsGet (roomsSet l k v) k = some v := by
  induction l with
  | nil => simp [roomsSet, roomsGet]
  | cons hd rest ih =>
    by_cases hh : hd.1 = k
    · simp [roomsSet, roomsGet, hh]
    · simp only [roomsSet, if_neg hh]
      unfold roomsGet
      rw [List.find?_cons_of_neg _ (by simpa using hh)]
      exact ih

theorem roomsGet_mem (l : List (String × Room)) (k : String) (room : Room)
    (h : roomsGet l k = some room) : (k, room) ∈ l := by
  unfold roomsGet at h
  cases hf : l.find? (fun kv => kv.1 = k) with
  | none =>
    rw [hf] at h
    cases h
  | some kv =>
    rw [hf] at h
    have h2 : kv.2 = room := by simpa using h
    have hk : kv.1 = k := by simpa using List.find?_some hf
    have hmem := List.mem_of_find?_eq_some hf
    obtain ⟨a, b⟩ := kv
    have hk2 : a = k := hk
    have h22 : b = room := h2
    subst hk2
    subst h22
    exact hmem

theorem resolveSession_mem (s : ServerState) (sid : Nat) (rn un : String) (room : Room)
    (h : resolveSession s sid = some (rn, un, room)) : (rn, room) ∈ s.rooms := by
  unfold resolveSession at h
  split at h
  · split at h
    · rename_i rn' un' hcr room' hget
      simp only [Option.some.injEq, Prod.mk.injEq] at h
      obtain ⟨h1, h2, h3⟩ := h
      subst h1
      subst h3
      exact roomsGet_mem _ _ _ hget
    · cases h
  · cases h

theorem updateFirst_exists_online (ps : List Participant) (pred : Participant → Bool)
    (f : Participant → Participant) (hf : ∀ p, (f p).online = true)
    (h : ps.any pred = true) :
    ∃ q ∈ updateFirst ps pred f, q.online = true := by
  induction ps with
  | nil => simp at h
  | cons p rest ih =>
    unfold updateFirst
    by_cases hp : pred p
    · rw [if_pos hp]
      exact ⟨f p, List.mem_cons_self _ _, hf p⟩
    · rw [if_neg hp]
      simp only [List.any_cons, Bool.or_eq_true] at h
      rcases h with h | h
      · exact absurd h hp
      · obtain ⟨q, hq, hqon⟩ := ih h
        exact ⟨q, List.mem_cons_of_mem _ hq, hqon⟩

theorem addParticipant_exists_online (r : Room) (u : String) (sid now : Nat) :
    ∃ p ∈ (r.addParticipant u sid now).2.participants, p.online = true := by
  unfold Room.addParticipant
  split
  case isTrue hex =>
    dsimp only
    exact updateFirst_exists_online _ _ _ (fun p => rfl) hex
  case isFalse hex =>
    dsimp only
    refine ⟨_, List.mem_append.mpr (Or.inr (List.mem_singleton.mpr rfl)), rfl⟩

theorem isEmpty_false_iff (r : Room) :
    r.isEmpty = false ↔ ∃ p ∈ r.participants, p.online = true := by
  unfold Room.isEmpty
  rw [decide_eq_false_iff_not]
  constructor
  · intro h
    have hne : r.participants.filter (fun p => p.online) ≠ [] := by
      intro hc
      exact h (by rw [hc]; rfl)
    obtain ⟨q, hq⟩ := List.exists_mem_of_ne_nil _ hne
    have hq2 := List.mem_filter.mp hq
    exact ⟨q, hq2.1, by simpa using hq2.2⟩
  · rintro ⟨p, hp, hpon⟩ hlen
    have hmem : p ∈ r.participants.filter (fun p => p.online) :=
      List.mem_filter.mpr ⟨hp, by simpa using hpon⟩
    rw [List.length_eq_zero.mp hlen] at hmem
    cases hmem

theorem startRound_participants (r : Room) :
    r.startRound.2.participants = r.participants := by
  unfold Room.startRound
  split
  · rfl
  · rfl

theorem submitNumber_participants (r : Room) (u : String) (x : ℚ) :
    (r.submitNumber u x).2.participants = r.participants := by
  rcases submitNumber_snd_shape r u x with h | h
  · rw [h]
  · rw [h]

theorem backToLobby_participants (r : Room) :
    r.backToLobby.2.participants = r.participants := rfl

theorem revealRun_participants (r : Room) (f : Bool) :
    (r.revealRun f).participants = r.participants := by
  unfold Room.revealRun
  cases hrev : r.reveal f with
  | none => rfl
  | some br =>
    obtain ⟨b, r'⟩ := br
    dsimp only
    cases b with
    | false =>
      rw [reveal_eq_some_false r f r' hrev]
    | true =>
      obtain ⟨-, -, i, wp, -, -, hr'⟩ := reveal_success_inv r f r' hrev
      rw [hr']

theorem registryInv_hostGated (s : ServerState) (sid : Nat) (f : Room → Room)
    (hf : ∀ room, (f room).participants = room.participants)
    (hinv : registryInv s) :
    registryInv (handleHostGated s sid f) := by
  unfold handleHostGated
  cases hres : resolveSession s sid with
  | none => exact hinv
  | some t =>
    obtain ⟨rn, un, room⟩ := t
    dsimp only
    split
    · intro rn' room' hmem
      rcases mem_roomsSet _ _ _ _ hmem with heq | hold
      · simp only [Prod.mk.injEq] at heq
        obtain ⟨h1, h2⟩ := heq
        obtain ⟨p, hp, hpon⟩ := hinv rn room (resolveSession_mem s sid rn un room hres)
        refine ⟨p, ?_, hpon⟩
        rw [h2, hf room]
        exact hp
      · exact hinv _ _ hold
    · exact hinv

/-- C5 (amended): the invariant "every room stored in the registry has
at least one online participant" is preserved by every protocol
operation except `kickUser`: join, start, submit, reveal (forced or
not), back-to-lobby, leave and disconnect all keep it.  `kickUser` can
break it — the host kicking the last online member (e.g. themself)
leaves a room with zero online participants in the registry, because
the kick handler, unlike the disconnect handler, never checks
`isEmpty` and never deletes the room. -/
theorem registryInv_preserved_non_kick (s : ServerState) (m : Msg)
    (hinv : registryInv s)
    (hnk : ∀ sid target, m ≠ Msg.kickUser sid target) :
    registryInv (s.step m) := by
  cases m with
  | kickUser sid target => exact absurd rfl (hnk sid target)
  | startRound sid =>
    exact registryInv_hostGated s sid _ (fun room => startRound_participants room) hinv
  | revealResult sid =>
    exact registryInv_hostGated s sid _ (fun room => revealRun_participants room false) hinv
  | forceReveal sid =>
    exact registryInv_hostGated s sid _ (fun room => revealRun_participants room true) hinv
  | backToLobby sid =>
    exact registryInv_hostGated s sid _ (fun room => backToLobby_participants room) hinv
  | submitNumber sid v =>
    simp only [ServerState.step]
    unfold handleSubmit
    cases hres : resolveSession s sid with
    | none => exact hinv
    | some t =>
      obtain ⟨rn, un, room⟩ := t
      dsimp only
      intro rn' room' hmem
      rcases mem_roomsSet _ _ _ _ hmem with heq | hold
      · simp only [Prod.mk.injEq] at heq
        obtain ⟨h1, h2⟩ := heq
        obtain ⟨p, hp, hpon⟩ := hinv rn room (resolveSession_mem s sid rn un room hres)
        refine ⟨p, ?_, hpon⟩
        rw [h2, submitNumber_participants]
        exact hp
      · exact hinv _ _ hold
  | leaveRoom sid =>
    simp only [ServerState.step]
    unfold handleDisconnect
    cases hres : resolveSession s sid with
    | none => exact hinv
    | some t =>
      obtain ⟨rn, un, room⟩ := t
      dsimp only
      by_cases hemp : (room.removeParticipant sid).isEmpty
      · rw [if_pos hemp]
        intro rn' room' hmem
        exact hinv rn' room' (List.mem_filter.mp hmem).1
      · rw [if_neg hemp]
        intro rn' room' hmem
        rcases mem_roomsSet _ _ _ _ hmem with heq | hold
        · simp only [Prod.mk.injEq] at heq
          obtain ⟨h1, h2⟩ := heq
          rw [h2]
          exact (isEmpty_false_iff _).mp (Bool.eq_false_iff.mpr hemp)
        · exact hinv _ _ hold
  | disconnect sid =>
    simp only [ServerState.step]
    unfold handleDisconnect
    cases hres : resolveSession s sid with
    | none => exact hinv
    | some t =>
      obtain ⟨rn, un, room⟩ := t
      dsimp only
      by_cases hemp : (room.removeParticipant sid).isEmpty
      · rw [if_pos hemp]
        intro rn' room' hmem
        exact hinv rn' room' (List.mem_filter.mp hmem).1
      · rw [if_neg hemp]
        intro rn' room' hmem
        rcases mem_roomsSet _ _ _ _ hmem with heq | hold
        · simp only [Prod.mk.injEq] at heq
          obtain ⟨h1, h2⟩ := heq
          rw [h2]
          exact (isEmpty_false_iff _).mp (Bool.eq_false_iff.mpr hemp)
        · exact hinv _ _ hold
  | joinRoom sid rn un now =>
    simp only [ServerState.step]
    unfold handleJoin
    by_cases hempty : rn = "" ∨ un = ""
    · rw [if_pos hempty]
      exact hinv
    · rw [if_neg hempty]
      dsimp only
      by_cases hex : (roomsGet s.rooms rn).isNone
      · rw [if_pos hex, roomsGet_roomsSet_self]
        dsimp only
        rw [if_neg (by simp [Room.mkNew])]
        intro rn' room' hmem
        rw [roomsSet_roomsSet] at hmem
        rcases mem_roomsSet _ _ _ _ hmem with heq | hold
        · simp only [Prod.mk.injEq] at heq
          obtain ⟨h1, h2⟩ := heq
          rw [h2]
          exact addParticipant_exists_online _ _ _ _
        · exact hinv _ _ hold
      · rw [if_neg hex]
        cases hget : roomsGet s.rooms rn with
        | none => simp [hget] at hex
        | some room0 =>
          dsimp only
          split
          · exact hinv
          · intro rn' room' hmem
            rcases mem_roomsSet _ _ _ _ hmem with heq | hold
            · simp only [Prod.mk.injEq] at heq
              obtain ⟨h1, h2⟩ := heq
              rw [h2]
              exact addParticipant_exists_online _ _ _ _
            · exact hinv _ _ hold

/-- C5 counterexample: after `A` creates room `R` (becoming its online
host) and then kicks themself, the registry still contains room `R`
with zero participants, so a room with no online participant persists
immediately after a protocol operation completes. -/
theorem registry_empty_room_after_kick :
    ¬ registryInv c5BadState := by
  intro h
  have hmem : ("R", Room.mkNew "R") ∈ c5BadState.rooms := by with_unfolding_all decide
  obtain ⟨p, hp, -⟩ := h "R" (Room.mkNew "R") hmem
  simp [Room.mkNew] at hp

theorem registryInv_preserved_non_kick_witness :
    registryInv ((ServerState.init.step (Msg.joinRoom 1 "R" "A" 0)).step (Msg.leaveRoom 1)) := by
  have h1 : registryInv (ServerState.init.step (Msg.joinRoom 1 "R" "A" 0)) := by
    intro rn room hmem
    have he : (ServerState.init.step (Msg.joinRoom 1 "R" "A" 0)).rooms
        = [("R", { Room.mkNew "R" with participants := [⟨"A", 1, true, true, 0⟩] })] := by
      with_unfolding_all decide
    rw [he] at hmem
    have heq := List.mem_singleton.mp hmem
    simp only [Prod.mk.injEq] at heq
    rw [heq.2]
    exact ⟨⟨"A", 1, true, true, 0⟩, by decide, rfl⟩
  exact registryInv_preserved_non_kick _ _ h1 (fun sid target hc => by cases hc)
